import Mathlib

/-!
Verification of the pyscrew data-normalization pipeline.

A shallow embedding of the core of the `pyscrew` repository:

* `pyscrew/transformers/handle_duplicates.py` — duplicate detection/removal
  (`HandleDuplicatesTransformer`), embedded as `processSeries` / `dupTransform`;
* `pyscrew/transformers/unpack_steps.py` — step unpacking
  (`UnpackStepsTransformer`), embedded as `unpackTransform`;
* `pyscrew/utils/data_model.py` — label filtering and run construction
  (`ScrewDataset._filter_labels`, `ScrewRun.__init__`, `ScrewDataset._load_runs`);
* `pyscrew/pipeline/transformers/convert_dataset.py` — output-format conversion
  (`DatasetConversionTransformer`), embedded as `convertTransformTrace`;
* the Length Normalizer stage, whose implementation is absent from the source
  tree (only its configuration options appear in `config/pipeline.py`), modelled
  from the specification.

Python floats are embedded as `ℚ` (every measurement value that occurs is an
exact decimal, and all comparisons performed by the code are exact equality
tests); machine integers as `ℕ`/`ℤ`.  NumPy's `isfinite` check is identically
true on `ℚ`, so the NaN/infinity branch of `_validate_arrays` never fires in
the embedding.
-/

namespace PyScrew

/-! ## List helpers mirroring the NumPy primitives -/

/-- Keep-mask for `np.unique(time, return_index=True)` followed by
`np.isin(np.arange(len(time)), unique_indices)` with `seen` the values of the
already-scanned prefix: position `i` is `true` iff `time[i]` does not occur
earlier. -/
def firstMaskAux (seen : List ℚ) : List ℚ → List Bool
  | [] => []
  | t :: ts => (! seen.contains t) :: firstMaskAux (t :: seen) ts

/-- `firstMask time` marks exactly the first occurrence of each time value,
as computed by `np.unique(time, return_index=True)` in `_process_series`
(handle_duplicates.py, `first` branch). -/
def firstMask (l : List ℚ) : List Bool := firstMaskAux [] l

/-- `lastMask time` marks exactly the last occurrence of each time value, as
computed by `np.unique(time[::-1], return_index=True)` and the index reversal
`len(time) - 1 - unique_indices` in `_process_series` (`last` branch). -/
def lastMask : List ℚ → List Bool
  | [] => []
  | t :: ts => (! ts.contains t) :: lastMask ts

/-- Boolean-mask selection `arr[mask]` of NumPy. -/
def applyMask : List Bool → List α → List α
  | b :: bs, x :: xs => if b then x :: applyMask bs xs else applyMask bs xs
  | _, _ => []

/-- Ordered duplicate-free insertion, auxiliary to `uniqueSorted`. -/
def insertUniq (x : ℚ) : List ℚ → List ℚ
  | [] => [x]
  | y :: ys => if x < y then x :: y :: ys else if x = y then y :: ys else y :: insertUniq x ys

/-- The sorted list of distinct values of `l`: the embedding of
`np.unique(time)` used by the `mean` branch of `_process_series`. -/
def uniqueSorted (l : List ℚ) : List ℚ := l.foldr insertUniq []

/-- The values of `vals` at the positions where `time` equals `t` — the NumPy
selection `vals[inverse_indices == i]` for `unique_times[i] = t`. -/
def groupVals (time vals : List ℚ) (t : ℚ) : List ℚ :=
  ((time.zip vals).filter (fun p => p.1 = t)).map (·.2)

/-- `np.mean(vals[idx])` over the group of positions where `time = t`. -/
def groupMean (time vals : List ℚ) (t : ℚ) : ℚ :=
  ((groupVals time vals t).sum) / ((groupVals time vals t).length : ℚ)

/-- All elements of a list are equal — the embedding of
`len(np.unique(arr[idx])) == 1` on a nonempty group. -/
def allSame : List ℚ → Bool
  | [] => true
  | x :: xs => xs.all (fun y => decide (y = x))

/-- `np.where(mask[: dup_idx + 1])[0][-1]`: the greatest position `j ≤ i` with
`m[j] = true` (`0` as the out-of-range default, never used on the masks the
code builds, whose position `0` is always `true`). -/
def keptIdxFirst (m : List Bool) (i : ℕ) : ℕ :=
  (((List.range (i + 1)).filter (fun j => m.getD j false)).getLast?).getD 0

/-- `np.where(mask[dup_idx:])[0][0] + dup_idx`: the least position `j ≥ i` with
`m[j] = true` (`0` as the out-of-range default, never used on the masks the
code builds, whose final position is always `true`). -/
def keptIdxLast (m : List Bool) (i : ℕ) : ℕ :=
  ((((List.range m.length).filter (fun j => decide (i ≤ j) && m.getD j false))).head?).getD 0

/-! ## The duplicate resolver (`handle_duplicates.py`) -/

/-- The five parallel channel arrays handed to
`HandleDuplicatesTransformer._process_series`. -/
structure Series where
  time : List ℚ
  torque : List ℚ
  angle : List ℚ
  gradient : List ℚ
  steps : List ℚ
deriving DecidableEq, Repr

/-- The dataclass `DuplicateStats` of handle_duplicates.py. -/
structure DuplicateStats where
  total_series : ℕ := 0
  total_points : ℕ := 0
  total_removed : ℕ := 0
  total_true_duplicates : ℕ := 0
  total_value_differences : ℕ := 0
deriving DecidableEq, Repr

/-- The single error kind of `DuplicateProcessingError` reachable in the
embedding (the NaN/infinity check of `_validate_arrays` cannot fire over `ℚ`,
and memory errors are outside the model): some processing step failed. -/
inductive DupErr | fail
deriving DecidableEq, Repr

/-- `_validate_arrays`: all five arrays share the length of `time`.  (The
subsequent `np.isfinite` check is identically true in the `ℚ` embedding.) -/
def validLen (s : Series) : Bool :=
  (s.torque.length == s.time.length) && (s.angle.length == s.time.length) &&
    (s.gradient.length == s.time.length) && (s.steps.length == s.time.length)

/-- The `handle_duplicates` method choices `"first" | "last" | "mean"`. -/
inductive Strategy | first | last | mean
deriving DecidableEq, Repr

/-- The statistics delta `(removed, true_duplicates, value_differences)`
accumulated by the `first`/`last` branch of `_process_series`: each removed
index (where the keep-mask is `false`) is compared against its kept index
(`keptIdxFirst` resp. `keptIdxLast`) on torque, angle and gradient. -/
def statsFirstLast (strat : Strategy) (m : List Bool)
    (torque angle gradient : List ℚ) : ℕ × ℕ × ℕ :=
  let dups := (List.range m.length).filter (fun i => ! m.getD i false)
  let isTrueDup : ℕ → Bool := fun i =>
    let k := if strat = Strategy.first then keptIdxFirst m i else keptIdxLast m i
    decide (torque.getD k 0 = torque.getD i 0) &&
      decide (angle.getD k 0 = angle.getD i 0) &&
        decide (gradient.getD k 0 = gradient.getD i 0)
  (dups.length, (dups.filter isTrueDup).length,
    (dups.filter (fun i => ! isTrueDup i)).length)

/-- The statistics delta accumulated by the `mean` branch of
`_process_series`: each unique time value with multiplicity `c > 1`
contributes `c - 1` removals, as true duplicates when torque, angle and
gradient are each constant on the group (`len(np.unique(...)) == 1`), else as
value differences.  The step channel is not consulted. -/
def statsMean (time torque angle gradient : List ℚ) : ℕ × ℕ × ℕ :=
  let groups := (uniqueSorted time).filter (fun u => 1 < time.count u)
  let isTrueDup : ℚ → Bool := fun u =>
    allSame (groupVals time torque u) && allSame (groupVals time angle u) &&
      allSame (groupVals time gradient u)
  ((groups.map (fun u => time.count u - 1)).sum,
    ((groups.filter isTrueDup).map (fun u => time.count u - 1)).sum,
    ((groups.filter (fun u => ! isTrueDup u)).map (fun u => time.count u - 1)).sum)

/-- `HandleDuplicatesTransformer._process_series`: validate, then resolve
duplicates per strategy, returning the output arrays together with the
statistics delta `(removed, true_duplicates, value_differences)` added to the
transformer's `_stats`. -/
def processSeries (strat : Strategy) (s : Series) :
    Except DupErr (Series × (ℕ × ℕ × ℕ)) :=
  if validLen s then
    match strat with
    | .first =>
        let m := firstMask s.time
        .ok (⟨applyMask m s.time, applyMask m s.torque, applyMask m s.angle,
          applyMask m s.gradient, applyMask m s.steps⟩,
          statsFirstLast .first m s.torque s.angle s.gradient)
    | .last =>
        let m := lastMask s.time
        .ok (⟨applyMask m s.time, applyMask m s.torque, applyMask m s.angle,
          applyMask m s.gradient, applyMask m s.steps⟩,
          statsFirstLast .last m s.torque s.angle s.gradient)
    | .mean =>
        let u := uniqueSorted s.time
        .ok (⟨u, u.map (groupMean s.time s.torque), u.map (groupMean s.time s.angle),
          u.map (groupMean s.time s.gradient), u.map (groupMean s.time s.steps)⟩,
          statsMean s.time s.torque s.angle s.gradient)
  else .error .fail

/-! ## The dataset-level duplicate transform -/

/-- The dataset's mutable `processed_data` dictionary: per-channel lists of
per-run value sequences.  A field is `none` when the corresponding key is
absent from the dictionary (Python's `KeyError` on access to an absent key is
an exception, caught and re-raised as `DuplicateProcessingError` by
`transform`). -/
structure ProcData where
  time : Option (List (List ℚ)) := none
  torque : Option (List (List ℚ)) := none
  angle : Option (List (List ℚ)) := none
  gradient : Option (List (List ℚ)) := none
  step : Option (List (List ℚ)) := none
  classes : Option (List ℚ) := none
deriving DecidableEq, Repr

/-- Dictionary access `processed_data[key]`: `KeyError` on an absent key. -/
def req : Option α → Except DupErr α
  | some a => .ok a
  | none => .error .fail

/-- List indexing `lst[idx]`: `IndexError` out of range. -/
def idx (l : List α) (i : ℕ) : Except DupErr α :=
  match l[i]? with
  | some a => .ok a
  | none => .error .fail

/-- One iteration of the run loop in `HandleDuplicatesTransformer.transform`:
fetch the five channel arrays of run `i` (an absent `step` key is replaced by
the empty array, per the `else: steps = np.array([])` branch), then process
them; returns the input length (added to `total_points`) together with
`_process_series`'s output. -/
def processIdx (strat : Strategy) (pd : ProcData) (i : ℕ) :
    Except DupErr (ℕ × Series × (ℕ × ℕ × ℕ)) := do
  let t ← idx (← req pd.time) i
  let tq ← idx (← req pd.torque) i
  let an ← idx (← req pd.angle) i
  let gr ← idx (← req pd.gradient) i
  let st ← match pd.step with
    | some ss => idx ss i
    | none => pure []
  let r ← processSeries strat ⟨t, tq, an, gr, st⟩
  pure (t.length, r)

/-- The run loop of `transform`, over the run indices in order; the first
raised exception aborts the whole loop. -/
def processRuns (strat : Strategy) (pd : ProcData) : List ℕ →
    Except DupErr (List (ℕ × Series × (ℕ × ℕ × ℕ)))
  | [] => .ok []
  | i :: is => do
      let r ← processIdx strat pd i
      let rs ← processRuns strat pd is
      pure (r :: rs)

/-- `HandleDuplicatesTransformer.transform` (pure value part): process every
run, then assemble the replacement `processed_data` (the `step` key is present
in the output exactly when present in the input; `class_values` is carried
over unchanged) and the final `DuplicateStats`. -/
def dupTransform (strat : Strategy) (pd : ProcData) :
    Except DupErr (ProcData × DuplicateStats) := do
  let ts ← req pd.time
  let results ← processRuns strat pd (List.range ts.length)
  let outPd : ProcData :=
    { time := some (results.map (·.2.1.time)),
      torque := some (results.map (·.2.1.torque)),
      angle := some (results.map (·.2.1.angle)),
      gradient := some (results.map (·.2.1.gradient)),
      step := if pd.step.isSome then some (results.map (·.2.1.steps)) else none,
      classes := pd.classes }
  let stats : DuplicateStats :=
    { total_series := ts.length,
      total_points := (results.map (·.1)).sum,
      total_removed := (results.map (·.2.2.1)).sum,
      total_true_duplicates := (results.map (·.2.2.2.1)).sum,
      total_value_differences := (results.map (·.2.2.2.2)).sum }
  pure (outPd, stats)

/-- `HandleDuplicatesTransformer.transform` as a trace of the mutation of
`dataset.processed_data`: the assignment `dataset.processed_data =
processed_data` is the final statement of the `try` block, so an exception
anywhere earlier leaves the dataset's `processed_data` at its input value. -/
def dupTransformTrace (strat : Strategy) (pd : ProcData) :
    ProcData × Option DupErr :=
  match dupTransform strat pd with
  | .error e => (pd, some e)
  | .ok (out, _) => (out, none)

/-! ## The step unpacker (`unpack_steps.py`) -/

/-- One `ScrewStep`'s four channel arrays (`data_model.py`). -/
structure StepData where
  stepTime : List ℚ
  stepTorque : List ℚ
  stepAngle : List ℚ
  stepGradient : List ℚ
deriving DecidableEq, Repr

/-- The step-indicator sequence built by `UnpackStepsTransformer.transform`:
`[step_idx] * len(step.get_values(TIME))` for each step, concatenated. -/
def stepChannel (run : List StepData) : List ℚ :=
  (run.enum.map (fun p => List.replicate p.2.stepTime.length ((p.1 : ℕ) : ℚ))).flatten

/-- `UnpackStepsTransformer.transform`: rebuild `processed_data` from scratch,
concatenating each run's per-step channel arrays in step order and, when
`include_steps`, adding the step-indicator channel. -/
def unpackTransform (runs : List (List StepData)) (includeSteps : Bool) : ProcData :=
  { time := some (runs.map (fun r => (r.map (·.stepTime)).flatten)),
    torque := some (runs.map (fun r => (r.map (·.stepTorque)).flatten)),
    angle := some (runs.map (fun r => (r.map (·.stepAngle)).flatten)),
    gradient := some (runs.map (fun r => (r.map (·.stepGradient)).flatten)),
    step := if includeSteps then some (runs.map stepChannel) else none,
    classes := none }

instance {ε α : Type _} [DecidableEq ε] [DecidableEq α] : DecidableEq (Except ε α)
  | .error e, .error f => decidable_of_iff (e = f) (by simp)
  | .error _, .ok _ => isFalse (by simp)
  | .ok _, .error _ => isFalse (by simp)
  | .ok a, .ok b => decidable_of_iff (a = b) (by simp)

/-! ## The round-trip scenario (spec §8) -/

/-- One step of the round-trip scenario: `n` samples starting at global sample
index `o`, with time `mkRat 12 10000 = 0.0012` per sample index and the three
measurement channels determined by the global sample index (so a step that
starts at the previous step's last index repeats that sample exactly). -/
def mkStep (o n : ℕ) : StepData :=
  { stepTime := (List.range n).map (fun j => mkRat (12 * (o + j)) 10000),
    stepTorque := (List.range n).map (fun j => ((o + j : ℕ) : ℚ)),
    stepAngle := (List.range n).map (fun j => ((2 * (o + j) : ℕ) : ℚ)),
    stepGradient := (List.range n).map (fun j => ((3 * (o + j) : ℕ) : ℚ)) }

/-- The round-trip run: 4 steps of lengths `[5, 15, 10, 5]`, time increasing
by `0.0012` per sample, each step overlapping the previous one by exactly one
sample (global index ranges `0–4`, `4–18`, `18–27`, `27–31`; raw length
`35`). -/
def c1Run : List StepData := [mkStep 0 5, mkStep 4 15, mkStep 18 10, mkStep 27 5]

set_option synthInstance.maxSize 2000 in
/-- C1: For a single run built from 4 steps of lengths `[5,15,10,5]` whose
time values increase by `0.0012` per sample and overlap by exactly one sample
at each step boundary (total raw length 35), the unpacking stage produces
channel sequences of length 35, and the duplicate-removal stage with strategy
`first` then produces channel sequences of length 32 with statistics
`total_removed = 3`, `total_true_duplicates = 3`,
`total_value_differences = 0` (and `total_series = 1`,
`total_points = 35`). -/
theorem c1_round_trip_first_strategy :
    ((unpackTransform [c1Run] true).time.getD []).map List.length = [35] ∧
    ((unpackTransform [c1Run] true).torque.getD []).map List.length = [35] ∧
    ((unpackTransform [c1Run] true).angle.getD []).map List.length = [35] ∧
    ((unpackTransform [c1Run] true).gradient.getD []).map List.length = [35] ∧
    ((unpackTransform [c1Run] true).step.getD []).map List.length = [35] ∧
    ((dupTransform .first (unpackTransform [c1Run] true)).map
      (fun p => ((p.1.time.getD []).map List.length, (p.1.torque.getD []).map List.length,
        (p.1.angle.getD []).map List.length, (p.1.gradient.getD []).map List.length,
        (p.1.step.getD []).map List.length, p.2)) =
      Except.ok ([32], [32], [32], [32], [32],
        (⟨1, 35, 3, 3, 0⟩ : DuplicateStats))) := by
  decide

/-! ## Lemmas about the keep-masks -/

theorem applyMask_nil (m : List Bool) : applyMask m ([] : List α) = [] := by
  cases m <;> rfl

theorem mem_applyMask_firstMaskAux {seen t : List ℚ} {y : ℚ}
    (h : y ∈ applyMask (firstMaskAux seen t) t) : y ∈ t ∧ y ∉ seen := by
  induction t generalizing seen with
  | nil => simp [firstMaskAux, applyMask] at h
  | cons x xs ih =>
    by_cases hx : x ∈ seen
    · rw [firstMaskAux, applyMask, if_neg (by simpa using hx)] at h
      obtain ⟨hy, hns⟩ := ih h
      exact ⟨List.mem_cons_of_mem _ hy, fun hs => hns (List.mem_cons_of_mem _ hs)⟩
    · rw [firstMaskAux, applyMask, if_pos (by simpa using hx)] at h
      rcases List.mem_cons.mp h with hxy | h
      · subst hxy
        exact ⟨List.mem_cons_self _ _, hx⟩
      · obtain ⟨hy, hns⟩ := ih h
        exact ⟨List.mem_cons_of_mem _ hy, fun hs => hns (List.mem_cons_of_mem _ hs)⟩

theorem nodup_applyMask_firstMaskAux {seen t : List ℚ} :
    (applyMask (firstMaskAux seen t) t).Nodup := by
  induction t generalizing seen with
  | nil => simp [firstMaskAux, applyMask]
  | cons x xs ih =>
    by_cases hx : x ∈ seen
    · rw [firstMaskAux, applyMask, if_neg (by simpa using hx)]
      exact ih
    · rw [firstMaskAux, applyMask, if_pos (by simpa using hx)]
      refine List.Nodup.cons (fun hmem => ?_) ih
      exact (mem_applyMask_firstMaskAux hmem).2 (List.mem_cons_self _ _)

theorem sorted_applyMask_firstMaskAux {seen t : List ℚ}
    (h : List.Pairwise (· ≤ ·) t) :
    List.Sorted (· < ·) (applyMask (firstMaskAux seen t) t) := by
  induction t generalizing seen with
  | nil => simp [firstMaskAux, applyMask, List.Sorted]
  | cons x xs ih =>
    rcases List.pairwise_cons.mp h with ⟨hle, hxs⟩
    by_cases hx : x ∈ seen
    · rw [firstMaskAux, applyMask, if_neg (by simpa using hx)]
      exact ih hxs
    · rw [firstMaskAux, applyMask, if_pos (by simpa using hx)]
      refine List.pairwise_cons.mpr ⟨fun y hy => ?_, ih hxs⟩
      obtain ⟨hyxs, hyns⟩ := mem_applyMask_firstMaskAux hy
      exact lt_of_le_of_ne (hle y hyxs)
        (fun hxy => hyns (hxy ▸ List.mem_cons_self _ _))

theorem mem_applyMask_lastMask {t : List ℚ} {y : ℚ}
    (h : y ∈ applyMask (lastMask t) t) : y ∈ t := by
  induction t with
  | nil => simp [lastMask, applyMask] at h
  | cons x xs ih =>
    by_cases hx : x ∈ xs
    · rw [lastMask, applyMask, if_neg (by simpa using hx)] at h
      exact List.mem_cons_of_mem _ (ih h)
    · rw [lastMask, applyMask, if_pos (by simpa using hx)] at h
      rcases List.mem_cons.mp h with hxy | h
      · exact hxy ▸ List.mem_cons_self _ _
      · exact List.mem_cons_of_mem _ (ih h)

theorem nodup_applyMask_lastMask {t : List ℚ} :
    (applyMask (lastMask t) t).Nodup := by
  induction t with
  | nil => simp [lastMask, applyMask]
  | cons x xs ih =>
    by_cases hx : x ∈ xs
    · rw [lastMask, applyMask, if_neg (by simpa using hx)]
      exact ih
    · rw [lastMask, applyMask, if_pos (by simpa using hx)]
      exact List.Nodup.cons (fun hmem => hx (mem_applyMask_lastMask hmem)) ih

theorem sorted_applyMask_lastMask {t : List ℚ}
    (h : List.Pairwise (· ≤ ·) t) :
    List.Sorted (· < ·) (applyMask (lastMask t) t) := by
  induction t with
  | nil => simp [lastMask, applyMask, List.Sorted]
  | cons x xs ih =>
    rcases List.pairwise_cons.mp h with ⟨hle, hxs⟩
    by_cases hx : x ∈ xs
    · rw [lastMask, applyMask, if_neg (by simpa using hx)]
      exact ih hxs
    · rw [lastMask, applyMask, if_pos (by simpa using hx)]
      refine List.pairwise_cons.mpr ⟨fun y hy => ?_, ih hxs⟩
      have hyxs := mem_applyMask_lastMask hy
      exact lt_of_le_of_ne (hle y hyxs) (fun hxy => hx (hxy ▸ hyxs))

theorem firstMaskAux_eq_replicate {seen t : List ℚ}
    (hd : ∀ x ∈ t, x ∉ seen) (hn : t.Nodup) :
    firstMaskAux seen t = List.replicate t.length true := by
  induction t generalizing seen with
  | nil => rfl
  | cons x xs ih =>
    rcases List.nodup_cons.mp hn with ⟨hx, hxs⟩
    rw [firstMaskAux, List.length_cons, List.replicate_succ]
    have hnotin : x ∉ seen := hd x (List.mem_cons_self _ _)
    have : (seen.contains x) = false := by simpa using hnotin
    rw [this]
    refine congrArg (true :: ·) (ih ?_ hxs)
    intro y hy
    rw [List.mem_cons]
    rintro (rfl | hys)
    · exact hx hy
    · exact hd y (List.mem_cons_of_mem _ hy) hys

theorem firstMask_eq_replicate {t : List ℚ} (hn : t.Nodup) :
    firstMask t = List.replicate t.length true :=
  firstMaskAux_eq_replicate (by simp) hn

theorem lastMask_eq_replicate {t : List ℚ} (hn : t.Nodup) :
    lastMask t = List.replicate t.length true := by
  induction t with
  | nil => rfl
  | cons x xs ih =>
    rcases List.nodup_cons.mp hn with ⟨hx, hxs⟩
    rw [lastMask, List.length_cons, List.replicate_succ]
    have : (xs.contains x) = false := by simpa using hx
    rw [this]
    exact congrArg (true :: ·) (ih hxs)

theorem applyMask_replicate_true {l : List α} :
    applyMask (List.replicate l.length true) l = l := by
  induction l with
  | nil => rfl
  | cons x xs ih =>
    rw [List.length_cons, List.replicate_succ, applyMask, if_pos rfl, ih]

theorem applyMask_length_eq {m : List Bool} {l₁ : List α} {l₂ : List β}
    (h : l₁.length = l₂.length) :
    (applyMask m l₁).length = (applyMask m l₂).length := by
  induction m generalizing l₁ l₂ with
  | nil => simp [applyMask]
  | cons b bs ih =>
    cases l₁ with
    | nil =>
      cases l₂ with
      | nil => rfl
      | cons y ys => simp at h
    | cons x xs =>
      cases l₂ with
      | nil => simp at h
      | cons y ys =>
        simp only [List.length_cons, Nat.succ.injEq] at h
        cases b with
        | true => simp [applyMask, ih h]
        | false => simp [applyMask, ih h]

theorem statsFirstLast_replicate_true (strat : Strategy) (n : ℕ)
    (torque angle gradient : List ℚ) :
    statsFirstLast strat (List.replicate n true) torque angle gradient = (0, 0, 0) := by
  have hnil : (List.range (List.replicate n true).length).filter
      (fun i => ! (List.replicate n true).getD i false) = [] := by
    rw [List.filter_eq_nil_iff]
    intro i hi
    rw [List.length_replicate, List.mem_range] at hi
    simp [List.getD_eq_getElem?_getD, List.getElem?_replicate, hi]
  simp only [statsFirstLast, hnil, List.filter_nil, List.length_nil]

/-! ## Lemmas about `uniqueSorted` -/

theorem mem_insertUniq {x y : ℚ} {l : List ℚ} :
    y ∈ insertUniq x l ↔ y = x ∨ y ∈ l := by
  induction l with
  | nil => simp [insertUniq]
  | cons z zs ih =>
    rw [insertUniq]
    by_cases h1 : x < z
    · rw [if_pos h1]
      simp [List.mem_cons]
    · rw [if_neg h1]
      by_cases h2 : x = z
      · subst h2
        rw [if_pos rfl]
        simp [List.mem_cons]
      · rw [if_neg h2]
        simp only [List.mem_cons, ih]
        tauto

theorem sorted_insertUniq {x : ℚ} {l : List ℚ}
    (h : List.Sorted (· < ·) l) : List.Sorted (· < ·) (insertUniq x l) := by
  induction l with
  | nil => simp [insertUniq, List.Sorted]
  | cons z zs ih =>
    rcases List.pairwise_cons.mp h with ⟨hz, hzs⟩
    rw [insertUniq]
    by_cases h1 : x < z
    · rw [if_pos h1]
      refine List.pairwise_cons.mpr ⟨fun y hy => ?_, h⟩
      rcases List.mem_cons.mp hy with rfl | hy
      · exact h1
      · exact h1.trans (hz y hy)
    · rw [if_neg h1]
      by_cases h2 : x = z
      · rw [if_pos h2]; exact h
      · rw [if_neg h2]
        refine List.pairwise_cons.mpr ⟨fun y hy => ?_, ih hzs⟩
        rcases mem_insertUniq.mp hy with rfl | hy
        · exact lt_of_le_of_ne (not_lt.mp h1) (Ne.symm h2)
        · exact hz y hy

theorem sorted_uniqueSorted (l : List ℚ) :
    List.Sorted (· < ·) (uniqueSorted l) := by
  induction l with
  | nil => simp [uniqueSorted, List.Sorted]
  | cons x xs ih => exact sorted_insertUniq ih

theorem mem_uniqueSorted {y : ℚ} {l : List ℚ} :
    y ∈ uniqueSorted l ↔ y ∈ l := by
  induction l with
  | nil => simp [uniqueSorted]
  | cons x xs ih =>
    show y ∈ insertUniq x (uniqueSorted xs) ↔ _
    rw [mem_insertUniq, ih, List.mem_cons]

theorem nodup_uniqueSorted (l : List ℚ) : (uniqueSorted l).Nodup :=
  (sorted_uniqueSorted l).nodup

theorem length_uniqueSorted_eq_of_nodup_mem {l u : List ℚ}
    (hu : u.Nodup) (hmem : ∀ y, y ∈ u ↔ y ∈ l) :
    u.length = (uniqueSorted l).length :=
  List.Perm.length_eq (List.perm_of_nodup_nodup_toFinset_eq hu (nodup_uniqueSorted l)
    (by
      ext y
      simp [List.mem_toFinset, hmem, mem_uniqueSorted]))

/-! ## Unfolding lemmas for `processSeries` -/

/-- The series produced by the `first`/`last` branch for keep-mask `m`. -/
def maskedSeries (m : List Bool) (s : Series) : Series :=
  ⟨applyMask m s.time, applyMask m s.torque, applyMask m s.angle,
    applyMask m s.gradient, applyMask m s.steps⟩

theorem processSeries_first (s : Series) (h : validLen s = true) :
    processSeries .first s = .ok (maskedSeries (firstMask s.time) s,
      statsFirstLast .first (firstMask s.time) s.torque s.angle s.gradient) := by
  simp [processSeries, h, maskedSeries]

theorem processSeries_last (s : Series) (h : validLen s = true) :
    processSeries .last s = .ok (maskedSeries (lastMask s.time) s,
      statsFirstLast .last (lastMask s.time) s.torque s.angle s.gradient) := by
  simp [processSeries, h, maskedSeries]

theorem processSeries_mean (s : Series) (h : validLen s = true) :
    processSeries .mean s = .ok (⟨uniqueSorted s.time,
      (uniqueSorted s.time).map (groupMean s.time s.torque),
      (uniqueSorted s.time).map (groupMean s.time s.angle),
      (uniqueSorted s.time).map (groupMean s.time s.gradient),
      (uniqueSorted s.time).map (groupMean s.time s.steps)⟩,
      statsMean s.time s.torque s.angle s.gradient) := by
  simp [processSeries, h]

theorem validLen_maskedSeries (m : List Bool) {s : Series}
    (h : validLen s = true) : validLen (maskedSeries m s) = true := by
  simp only [validLen, Bool.and_eq_true, beq_iff_eq] at h ⊢
  obtain ⟨⟨⟨h1, h2⟩, h3⟩, h4⟩ := h
  exact ⟨⟨⟨applyMask_length_eq h1, applyMask_length_eq h2⟩,
    applyMask_length_eq h3⟩, applyMask_length_eq h4⟩

/-- On a series whose time values are pairwise distinct, the `first` and
`last` branches keep everything and record no removals. -/
theorem processSeries_of_nodup (strat : Strategy) (s : Series)
    (hstrat : strat = .first ∨ strat = .last)
    (h : validLen s = true) (hnd : s.time.Nodup) :
    processSeries strat s = .ok (s, (0, 0, 0)) := by
  simp only [validLen, Bool.and_eq_true, beq_iff_eq] at h
  obtain ⟨⟨⟨h1, h2⟩, h3⟩, h4⟩ := h
  have hmask : ∀ (l : List ℚ), l.length = s.time.length →
      applyMask (List.replicate s.time.length true) l = l := by
    intro l hl
    rw [← hl]
    exact applyMask_replicate_true
  rcases hstrat with rfl | rfl
  · rw [processSeries_first s (by simp [validLen, h1, h2, h3, h4]),
      firstMask_eq_replicate hnd]
    rw [statsFirstLast_replicate_true]
    show Except.ok (maskedSeries _ s, _) = _
    simp only [maskedSeries, hmask s.time rfl, hmask s.torque h1, hmask s.angle h2,
      hmask s.gradient h3, hmask s.steps h4]
  · rw [processSeries_last s (by simp [validLen, h1, h2, h3, h4]),
      lastMask_eq_replicate hnd]
    rw [statsFirstLast_replicate_true]
    show Except.ok (maskedSeries _ s, _) = _
    simp only [maskedSeries, hmask s.time rfl, hmask s.torque h1, hmask s.angle h2,
      hmask s.gradient h3, hmask s.steps h4]

/-- C5: The `first` and `last` duplicate strategies are idempotent: a
second application of `_process_series` to its own output returns the output
unchanged and removes zero points, because no duplicated time values remain
after the first application. -/
theorem c5_first_last_idempotent (strat : Strategy) (s : Series)
    (hstrat : strat = .first ∨ strat = .last) (h : validLen s = true) :
    ∃ s' d, processSeries strat s = .ok (s', d) ∧ s'.time.Nodup ∧
      processSeries strat s' = .ok (s', (0, 0, 0)) := by
  rcases hstrat with rfl | rfl
  · refine ⟨maskedSeries (firstMask s.time) s, _, processSeries_first s h,
      nodup_applyMask_firstMaskAux, ?_⟩
    exact processSeries_of_nodup _ _ (Or.inl rfl) (validLen_maskedSeries _ h)
      nodup_applyMask_firstMaskAux
  · refine ⟨maskedSeries (lastMask s.time) s, _, processSeries_last s h,
      nodup_applyMask_lastMask, ?_⟩
    exact processSeries_of_nodup _ _ (Or.inr rfl) (validLen_maskedSeries _ h)
      nodup_applyMask_lastMask

/-- Witness for C5 at a concrete series with duplicated time values. -/
theorem c5_first_last_idempotent_witness :
    ((Strategy.first = Strategy.first ∨ Strategy.first = Strategy.last) ∧
      validLen ⟨[0, 0, 1], [1, 2, 3], [4, 5, 6], [7, 8, 9], [0, 0, 0]⟩ = true) ∧
    ∃ s' d, processSeries .first ⟨[0, 0, 1], [1, 2, 3], [4, 5, 6], [7, 8, 9], [0, 0, 0]⟩ =
        .ok (s', d) ∧ s'.time.Nodup ∧ processSeries .first s' = .ok (s', (0, 0, 0)) :=
  ⟨⟨Or.inl rfl, by decide⟩,
    c5_first_last_idempotent .first _ (Or.inl rfl) (by decide)⟩

/-- C6: On a run whose (concatenated) time sequence is non-decreasing —
which the documented time structure (non-decreasing within each step, and
repeating or jumping upward at step boundaries) composes to — the output time
sequence of every strategy is sorted by strictly increasing time value,
without any explicit sort step. -/
theorem c6_output_time_sorted (strat : Strategy) (s : Series)
    (h : validLen s = true) (hc : List.Chain' (· ≤ ·) s.time) :
    ∃ s' d, processSeries strat s = .ok (s', d) ∧
      List.Sorted (· < ·) s'.time := by
  have hpw : List.Pairwise (· ≤ ·) s.time := List.chain'_iff_pairwise.mp hc
  cases strat with
  | first =>
    exact ⟨_, _, processSeries_first s h, sorted_applyMask_firstMaskAux hpw⟩
  | last =>
    exact ⟨_, _, processSeries_last s h, sorted_applyMask_lastMask hpw⟩
  | mean =>
    exact ⟨_, _, processSeries_mean s h, sorted_uniqueSorted s.time⟩

/-- Witness for C6 at a concrete series with a repeated boundary time. -/
theorem c6_output_time_sorted_witness :
    (validLen ⟨[0, 1, 1, 2], [1, 2, 3, 4], [5, 6, 7, 8], [9, 10, 11, 12], [0, 0, 1, 1]⟩ = true ∧
      List.Chain' (· ≤ ·) [(0 : ℚ), 1, 1, 2]) ∧
    ∃ s' d, processSeries .first
        ⟨[0, 1, 1, 2], [1, 2, 3, 4], [5, 6, 7, 8], [9, 10, 11, 12], [0, 0, 1, 1]⟩ =
        .ok (s', d) ∧ List.Sorted (· < ·) s'.time :=
  ⟨⟨by decide, List.Chain'.cons (by decide)
      (List.Chain'.cons (by decide) (List.Chain'.cons (by decide) (List.chain'_singleton _)))⟩,
    c6_output_time_sorted .first _ (by decide)
      (List.Chain'.cons (by decide)
        (List.Chain'.cons (by decide) (List.Chain'.cons (by decide) (List.chain'_singleton _))))⟩

/-! ## Lemmas about group means -/

theorem groupVals_length {time vals : List ℚ} (h : vals.length = time.length)
    (t : ℚ) : (groupVals time vals t).length =
      (time.filter (fun x => decide (x = t))).length := by
  induction time generalizing vals with
  | nil => simp [groupVals]
  | cons x xs ih =>
    cases vals with
    | nil => simp at h
    | cons y ys =>
      simp only [List.length_cons, Nat.succ.injEq] at h
      have := @ih ys h
      simp only [groupVals] at this
      by_cases hx : x = t
      · simp [groupVals, List.filter_cons, hx, this]
      · simp [groupVals, List.filter_cons, hx, this]

theorem getD_map_of_lt {us : List ℚ} {f : ℚ → ℚ} {i : ℕ} (h : i < us.length) :
    (us.map f).getD i 0 = f (us.getD i 0) := by
  rw [List.getD_eq_getElem?_getD, List.getD_eq_getElem?_getD, List.getElem?_map,
    List.getElem?_eq_getElem h]
  rfl

/-- C3: Under the `mean` strategy, the output contains exactly one point
per unique input time value (the output time channel is duplicate-free and has
the same time values as the input, preserved as-is, never averaged), and at
each output position every one of the torque, angle, gradient and step values
equals the arithmetic mean of the corresponding input values sharing that
time value (stated multiplicatively: output value times group size equals the
group sum, with a nonempty group). -/
theorem c3_mean_strategy (s : Series) (h : validLen s = true) :
    ∃ s' d, processSeries .mean s = .ok (s', d) ∧
      s'.time.Nodup ∧ (∀ t, t ∈ s'.time ↔ t ∈ s.time) ∧
      s'.torque.length = s'.time.length ∧ s'.angle.length = s'.time.length ∧
      s'.gradient.length = s'.time.length ∧ s'.steps.length = s'.time.length ∧
      ∀ i, i < s'.time.length →
        (0 < (groupVals s.time s.torque (s'.time.getD i 0)).length ∧
          s'.torque.getD i 0 * ((groupVals s.time s.torque (s'.time.getD i 0)).length : ℚ) =
            (groupVals s.time s.torque (s'.time.getD i 0)).sum) ∧
        s'.angle.getD i 0 * ((groupVals s.time s.angle (s'.time.getD i 0)).length : ℚ) =
          (groupVals s.time s.angle (s'.time.getD i 0)).sum ∧
        s'.gradient.getD i 0 * ((groupVals s.time s.gradient (s'.time.getD i 0)).length : ℚ) =
          (groupVals s.time s.gradient (s'.time.getD i 0)).sum ∧
        s'.steps.getD i 0 * ((groupVals s.time s.steps (s'.time.getD i 0)).length : ℚ) =
          (groupVals s.time s.steps (s'.time.getD i 0)).sum := by
  simp only [validLen, Bool.and_eq_true, beq_iff_eq] at h
  obtain ⟨⟨⟨h1, h2⟩, h3⟩, h4⟩ := h
  refine ⟨_, _, processSeries_mean s (by simp [validLen, h1, h2, h3, h4]),
    nodup_uniqueSorted s.time, fun t => mem_uniqueSorted, by simp, by simp, by simp,
    by simp, ?_⟩
  intro i hi
  set u := uniqueSorted s.time with hu
  have hit : u.getD i 0 ∈ s.time := by
    refine mem_uniqueSorted.mp ?_
    rw [List.getD_eq_getElem?_getD, List.getElem?_eq_getElem hi]
    exact List.getElem_mem _
  have hpos : ∀ vals : List ℚ, vals.length = s.time.length →
      0 < (groupVals s.time vals (u.getD i 0)).length := by
    intro vals hlen
    rw [groupVals_length hlen]
    exact List.length_pos.mpr (List.ne_nil_of_mem
      (List.mem_filter.mpr ⟨hit, by simp⟩))
  have hmean : ∀ vals : List ℚ, vals.length = s.time.length →
      (u.map (groupMean s.time vals)).getD i 0 *
        ((groupVals s.time vals (u.getD i 0)).length : ℚ) =
        (groupVals s.time vals (u.getD i 0)).sum := by
    intro vals hlen
    rw [getD_map_of_lt hi, groupMean]
    exact div_mul_cancel₀ _ (by exact_mod_cast (hpos vals hlen).ne')
  exact ⟨⟨hpos s.torque h1, hmean s.torque h1⟩, hmean s.angle h2,
    hmean s.gradient h3, hmean s.steps h4⟩

/-- Witness for C3 at a concrete series with a duplicated time value. -/
theorem c3_mean_strategy_witness :
    validLen ⟨[0, 0, 1], [1, 3, 5], [2, 4, 6], [3, 5, 7], [0, 0, 1]⟩ = true ∧
    ∃ s' d, processSeries .mean ⟨[0, 0, 1], [1, 3, 5], [2, 4, 6], [3, 5, 7], [0, 0, 1]⟩ =
        .ok (s', d) ∧ s'.time.Nodup ∧
      (∀ t, t ∈ s'.time ↔ t ∈ ([0, 0, 1] : List ℚ)) ∧
      s'.torque.length = s'.time.length ∧ s'.angle.length = s'.time.length ∧
      s'.gradient.length = s'.time.length ∧ s'.steps.length = s'.time.length ∧
      ∀ i, i < s'.time.length →
        (0 < (groupVals [0, 0, 1] [1, 3, 5] (s'.time.getD i 0)).length ∧
          s'.torque.getD i 0 * ((groupVals [0, 0, 1] [1, 3, 5] (s'.time.getD i 0)).length : ℚ) =
            (groupVals [0, 0, 1] [1, 3, 5] (s'.time.getD i 0)).sum) ∧
        s'.angle.getD i 0 * ((groupVals [0, 0, 1] [2, 4, 6] (s'.time.getD i 0)).length : ℚ) =
          (groupVals [0, 0, 1] [2, 4, 6] (s'.time.getD i 0)).sum ∧
        s'.gradient.getD i 0 * ((groupVals [0, 0, 1] [3, 5, 7] (s'.time.getD i 0)).length : ℚ) =
          (groupVals [0, 0, 1] [3, 5, 7] (s'.time.getD i 0)).sum ∧
        s'.steps.getD i 0 * ((groupVals [0, 0, 1] [0, 0, 1] (s'.time.getD i 0)).length : ℚ) =
          (groupVals [0, 0, 1] [0, 0, 1] (s'.time.getD i 0)).sum :=
  ⟨by decide, c3_mean_strategy ⟨[0, 0, 1], [1, 3, 5], [2, 4, 6], [3, 5, 7], [0, 0, 1]⟩ (by decide)⟩

/-! ## Counting lemmas for the duplicate statistics -/

theorem sum_count_uniqueSorted (l : List ℚ) :
    ((uniqueSorted l).map (fun u => l.count u)).sum = l.length := by
  have hperm : (uniqueSorted l).Perm l.dedup :=
    List.perm_of_nodup_nodup_toFinset_eq (nodup_uniqueSorted l) (List.nodup_dedup l)
      (by
        ext y
        simp [List.mem_toFinset, mem_uniqueSorted, List.mem_dedup])
  rw [(hperm.map (fun u => l.count u)).sum_eq]
  exact List.sum_map_count_dedup_eq_length l

theorem le_sum_map_of_one_le {us : List ℚ} {f : ℚ → ℕ}
    (h : ∀ u ∈ us, 1 ≤ f u) : us.length ≤ (us.map f).sum := by
  induction us with
  | nil => simp
  | cons u us ih =>
    simp only [List.map_cons, List.sum_cons, List.length_cons]
    have h1 := h u (List.mem_cons_self _ _)
    have h2 := ih (fun v hv => h v (List.mem_cons_of_mem _ hv))
    omega

theorem sum_map_sub_one {us : List ℚ} {f : ℚ → ℕ}
    (h : ∀ u ∈ us, 1 ≤ f u) :
    (us.map (fun u => f u - 1)).sum = (us.map f).sum - us.length := by
  induction us with
  | nil => simp
  | cons u us ih =>
    simp only [List.map_cons, List.sum_cons, List.length_cons]
    have h1 := h u (List.mem_cons_self _ _)
    have h2 := ih (fun v hv => h v (List.mem_cons_of_mem _ hv))
    have h3 := le_sum_map_of_one_le (fun v hv => h v (List.mem_cons_of_mem _ hv))
    omega

theorem sum_map_filter_split (p : ℚ → Bool) (f : ℚ → ℕ) (us : List ℚ) :
    ((us.filter p).map f).sum + ((us.filter (fun u => ! p u)).map f).sum =
      (us.map f).sum := by
  induction us with
  | nil => simp
  | cons u us ih =>
    by_cases hu : p u
    · simp [List.filter_cons, hu]
      omega
    · have hu' : p u = false := by simpa using hu
      simp [List.filter_cons, hu']
      omega

theorem sum_map_filter_eq_sum_ite (p : ℚ → Bool) (f : ℚ → ℕ) (us : List ℚ) :
    ((us.filter p).map f).sum =
      (us.map (fun u => if p u = true then f u else 0)).sum := by
  induction us with
  | nil => simp
  | cons u us ih =>
    by_cases hu : p u
    · simp [List.filter_cons, hu, ih]
    · simp [List.filter_cons, hu, ih]

theorem range_filter_getD_count (m : List Bool) (q : Bool → Bool) :
    ((List.range m.length).filter (fun i => q (m.getD i false))).length =
      m.countP q := by
  induction m with
  | nil => simp
  | cons b bs ih =>
    rw [List.length_cons, List.range_succ_eq_map, List.filter_cons,
      List.countP_cons]
    have htail : ((List.range bs.length).map Nat.succ).filter
        (fun i => q ((b :: bs).getD i false)) =
        ((List.range bs.length).filter (fun i => q (bs.getD i false))).map Nat.succ := by
      rw [List.filter_map]
      exact congrArg _ (List.filter_congr (fun i _ => by
        simp [Function.comp, List.getD_cons_succ]))
    by_cases hb : q ((b :: bs).getD 0 false)
    · rw [if_pos (by simpa using hb)]
      simp only [List.getD_cons_zero] at hb
      rw [List.length_cons, htail, List.length_map, ih, if_pos hb]
    · rw [if_neg (by simpa using hb)]
      simp only [List.getD_cons_zero] at hb
      rw [htail, List.length_map, ih, if_neg hb]
      omega

theorem applyMask_length_countP {m : List Bool} {l : List α}
    (h : m.length = l.length) : (applyMask m l).length = m.countP (fun b => b) := by
  induction m generalizing l with
  | nil => simp [applyMask]
  | cons b bs ih =>
    cases l with
    | nil => simp at h
    | cons x xs =>
      simp only [List.length_cons, Nat.succ.injEq] at h
      cases b with
      | true => simp [applyMask, List.countP_cons, ih h]
      | false => simp [applyMask, List.countP_cons, ih h]

theorem mem_applyMask_firstMaskAux_of_mem {seen t : List ℚ} {y : ℚ}
    (hy : y ∈ t) (hns : y ∉ seen) : y ∈ applyMask (firstMaskAux seen t) t := by
  induction t generalizing seen with
  | nil => simp at hy
  | cons x xs ih =>
    by_cases hx : x ∈ seen
    · rw [firstMaskAux, applyMask, if_neg (by simpa using hx)]
      rcases List.mem_cons.mp hy with rfl | hy'
      · exact absurd hx hns
      · exact ih hy' (by
          rw [List.mem_cons]
          rintro (rfl | hc)
          · exact hns hx
          · exact hns hc)
    · rw [firstMaskAux, applyMask, if_pos (by simpa using hx)]
      rcases List.mem_cons.mp hy with rfl | hy'
      · exact List.mem_cons_self _ _
      · by_cases hyx : y = x
        · exact hyx ▸ List.mem_cons_self _ _
        · refine List.mem_cons_of_mem _ (ih hy' ?_)
          rw [List.mem_cons]
          rintro (h | h)
          · exact hyx h
          · exact hns h

theorem mem_applyMask_lastMask_of_mem {t : List ℚ} {y : ℚ}
    (hy : y ∈ t) : y ∈ applyMask (lastMask t) t := by
  induction t with
  | nil => simp at hy
  | cons x xs ih =>
    by_cases hx : x ∈ xs
    · rw [lastMask, applyMask, if_neg (by simpa using hx)]
      rcases List.mem_cons.mp hy with rfl | hy'
      · exact ih hx
      · exact ih hy'
    · rw [lastMask, applyMask, if_pos (by simpa using hx)]
      rcases List.mem_cons.mp hy with rfl | hy'
      · exact List.mem_cons_self _ _
      · exact List.mem_cons_of_mem _ (ih hy')

theorem firstMaskAux_length (seen t : List ℚ) :
    (firstMaskAux seen t).length = t.length := by
  induction t generalizing seen with
  | nil => rfl
  | cons x xs ih => simp [firstMaskAux, ih]

theorem firstMask_length (t : List ℚ) : (firstMask t).length = t.length :=
  firstMaskAux_length [] t

theorem lastMask_length (t : List ℚ) : (lastMask t).length = t.length := by
  induction t with
  | nil => rfl
  | cons x xs ih => simp [lastMask, ih]

theorem keptFirst_length (t : List ℚ) :
    (applyMask (firstMask t) t).length = (uniqueSorted t).length :=
  length_uniqueSorted_eq_of_nodup_mem nodup_applyMask_firstMaskAux
    (fun y => ⟨fun hy => (mem_applyMask_firstMaskAux hy).1,
      fun hy => mem_applyMask_firstMaskAux_of_mem hy (by simp)⟩)

theorem keptLast_length (t : List ℚ) :
    (applyMask (lastMask t) t).length = (uniqueSorted t).length :=
  length_uniqueSorted_eq_of_nodup_mem nodup_applyMask_lastMask
    (fun _y => ⟨fun hy => mem_applyMask_lastMask hy,
      fun hy => mem_applyMask_lastMask_of_mem hy⟩)

/-! ## Characterisation of the kept indices used by `first`/`last` -/

/-- `k` is the nearest kept position at or before `i` in mask `m`. -/
def IsNearestKeptBefore (m : List Bool) (i k : ℕ) : Prop :=
  k ≤ i ∧ m.getD k false = true ∧ ∀ j, k < j → j ≤ i → m.getD j false = false

/-- `k` is the nearest kept position at or after `i` in mask `m`. -/
def IsNearestKeptAfter (m : List Bool) (i k : ℕ) : Prop :=
  i ≤ k ∧ m.getD k false = true ∧ ∀ j, i ≤ j → j < k → m.getD j false = false

theorem le_getLast_of_pairwise_lt {L : List ℕ} {k : ℕ}
    (hs : L.Pairwise (· < ·)) (hk : L.getLast? = some k) :
    ∀ x ∈ L, x ≤ k := by
  induction L with
  | nil => simp
  | cons a rest ih =>
    intro x hx
    cases rest with
    | nil =>
      simp only [List.getLast?_singleton, Option.some.injEq] at hk
      rcases List.mem_singleton.mp hx with rfl
      omega
    | cons b rest' =>
      rw [List.getLast?_cons_cons] at hk
      rcases List.pairwise_cons.mp hs with ⟨ha, hrest⟩
      rcases List.mem_cons.mp hx with rfl | hx'
      · have hkmem : k ∈ b :: rest' := List.mem_of_getLast?_eq_some hk
        exact (ha k hkmem).le
      · exact ih hrest hk x hx'

theorem head_le_of_pairwise_lt {L : List ℕ} {k : ℕ}
    (hs : L.Pairwise (· < ·)) (hk : L.head? = some k) :
    ∀ x ∈ L, k ≤ x := by
  cases L with
  | nil => simp
  | cons a rest =>
    simp only [List.head?_cons, Option.some.injEq] at hk
    subst hk
    intro x hx
    rcases List.mem_cons.mp hx with rfl | hx'
    · exact le_refl x
    · exact ((List.pairwise_cons.mp hs).1 x hx').le

theorem keptIdxFirst_spec (m : List Bool) (i : ℕ)
    (hex : ∃ j, j ≤ i ∧ m.getD j false = true) :
    IsNearestKeptBefore m i (keptIdxFirst m i) := by
  set L := (List.range (i + 1)).filter (fun j => m.getD j false) with hLdef
  have hsort : L.Pairwise (· < ·) := (List.pairwise_lt_range _).filter _
  obtain ⟨j, hj1, hj2⟩ := hex
  have hjL : j ∈ L :=
    List.mem_filter.mpr ⟨List.mem_range.mpr (by omega), hj2⟩
  have hLne : L ≠ [] := List.ne_nil_of_mem hjL
  obtain ⟨k, hk⟩ := Option.isSome_iff_exists.mp
    (List.getLast?_isSome.mpr hLne)
  have hkd : keptIdxFirst m i = k := by
    rw [keptIdxFirst, ← hLdef, hk, Option.getD_some]
  have hkmem : k ∈ L := List.mem_of_getLast?_eq_some hk
  rcases List.mem_filter.mp hkmem with ⟨hkrange, hktrue⟩
  rw [hkd]
  refine ⟨by have := List.mem_range.mp hkrange; omega, by simpa using hktrue, ?_⟩
  intro j' hj'1 hj'2
  by_contra hfalse
  have hj'true : m.getD j' false = true := by
    cases hgd : m.getD j' false
    · exact absurd hgd hfalse
    · rfl
  have hj'L : j' ∈ L :=
    List.mem_filter.mpr ⟨List.mem_range.mpr (by omega), hj'true⟩
  have := le_getLast_of_pairwise_lt hsort hk j' hj'L
  omega

theorem keptIdxLast_spec (m : List Bool) (i : ℕ)
    (hex : ∃ j, i ≤ j ∧ j < m.length ∧ m.getD j false = true) :
    IsNearestKeptAfter m i (keptIdxLast m i) := by
  set L := (List.range m.length).filter
    (fun j => decide (i ≤ j) && m.getD j false) with hLdef
  have hsort : L.Pairwise (· < ·) := (List.pairwise_lt_range _).filter _
  obtain ⟨j, hj1, hj2, hj3⟩ := hex
  have hjL : j ∈ L :=
    List.mem_filter.mpr ⟨List.mem_range.mpr hj2,
      by rw [Bool.and_eq_true, decide_eq_true_iff]; exact ⟨hj1, hj3⟩⟩
  have hLne : L ≠ [] := List.ne_nil_of_mem hjL
  obtain ⟨k, hk⟩ := Option.isSome_iff_exists.mp (List.head?_isSome.mpr hLne)
  have hkd : keptIdxLast m i = k := by
    rw [keptIdxLast, ← hLdef, hk, Option.getD_some]
  have hkmem : k ∈ L := List.mem_of_mem_head? hk
  rcases List.mem_filter.mp hkmem with ⟨hkrange, hkcond⟩
  rw [Bool.and_eq_true, decide_eq_true_iff] at hkcond
  rw [hkd]
  refine ⟨hkcond.1, hkcond.2, ?_⟩
  intro j' hj'1 hj'2
  by_contra hfalse
  have hj'true : m.getD j' false = true := by
    cases hgd : m.getD j' false
    · exact absurd hgd hfalse
    · rfl
  have hj'L : j' ∈ L := by
    refine List.mem_filter.mpr ⟨List.mem_range.mpr ?_,
      by rw [Bool.and_eq_true, decide_eq_true_iff]; exact ⟨hj'1, hj'true⟩⟩
    have := List.mem_range.mp hkrange
    omega
  have := head_le_of_pairwise_lt hsort hk j' hj'L
  omega

theorem firstMask_getD_zero {t : List ℚ} (h : t ≠ []) :
    (firstMask t).getD 0 false = true := by
  cases t with
  | nil => exact absurd rfl h
  | cons x xs => simp [firstMask, firstMaskAux]

theorem lastMask_getD_last {t : List ℚ} (h : t ≠ []) :
    (lastMask t).getD (t.length - 1) false = true := by
  induction t with
  | nil => exact absurd rfl h
  | cons x xs ih =>
    cases hxs : xs with
    | nil => simp [lastMask]
    | cons y ys =>
      rw [← hxs]
      have hne : xs ≠ [] := by simp [hxs]
      have hlen : xs.length - 1 + 1 = xs.length := by
        cases xs
        · exact absurd rfl hne
        · simp
      rw [lastMask, List.length_cons]
      have : x :: xs ≠ [] := by simp
      rw [Nat.add_sub_cancel, ← hlen, List.getD_cons_succ]
      exact ih hne

/-! ## Group constancy (`true duplicate` vs `value difference`) -/

/-- All non-time measurement values (torque, angle, gradient) are identical
across the group of points sharing time value `u`. -/
def GroupConst (s : Series) (u : ℚ) : Prop :=
  (groupVals s.time s.torque u).Pairwise (· = ·) ∧
    (groupVals s.time s.angle u).Pairwise (· = ·) ∧
    (groupVals s.time s.gradient u).Pairwise (· = ·)

instance (s : Series) (u : ℚ) : Decidable (GroupConst s u) := by
  unfold GroupConst
  infer_instance

theorem allSame_iff_pairwise {l : List ℚ} :
    allSame l = true ↔ l.Pairwise (· = ·) := by
  cases l with
  | nil => simp [allSame]
  | cons x xs =>
    simp only [allSame, List.all_eq_true, decide_eq_true_iff, List.pairwise_cons]
    constructor
    · intro hall
      refine ⟨fun y hy => (hall y hy).symm, ?_⟩
      exact List.pairwise_of_forall_mem_list
        (fun a ha b hb => (hall a ha).trans (hall b hb).symm)
    · intro ⟨hx, _⟩ y hy
      exact (hx y hy).symm

theorem countP_bool_split (p : α → Bool) (l : List α) :
    l.countP p + l.countP (fun a => ! p a) = l.length := by
  induction l with
  | nil => rfl
  | cons x xs ih =>
    by_cases h : p x
    · simp [List.countP_cons, h]
      omega
    · have h' : p x = false := by simpa using h
      simp [List.countP_cons, h']
      omega

/-- The number of duplicate positions removed (for the `first` mask) is the
raw length minus the number of distinct time values. -/
theorem dups_length_first (t : List ℚ) :
    ((List.range (firstMask t).length).filter
      (fun i => ! (firstMask t).getD i false)).length =
      t.length - (uniqueSorted t).length := by
  have h1 := range_filter_getD_count (firstMask t) (fun b => ! b)
  have h2 := countP_bool_split (fun b => b) (firstMask t)
  have h3 : ((firstMask t).countP (fun b => b)) = (uniqueSorted t).length := by
    rw [← applyMask_length_countP (firstMask_length t), keptFirst_length]
  have h4 : (firstMask t).countP (fun b => ! b) =
      (firstMask t).countP (fun b => (fun b => ! b) b) := rfl
  rw [h1, ← firstMask_length t]
  omega

/-- The number of duplicate positions removed (for the `last` mask) is the
raw length minus the number of distinct time values. -/
theorem dups_length_last (t : List ℚ) :
    ((List.range (lastMask t).length).filter
      (fun i => ! (lastMask t).getD i false)).length =
      t.length - (uniqueSorted t).length := by
  have h1 := range_filter_getD_count (lastMask t) (fun b => ! b)
  have h2 := countP_bool_split (fun b => b) (lastMask t)
  have h3 : ((lastMask t).countP (fun b => b)) = (uniqueSorted t).length := by
    rw [← applyMask_length_countP (lastMask_length t), keptLast_length]
  rw [h1, ← lastMask_length t]
  omega

/-- The total removal count of the `mean` branch is the raw length minus the
number of distinct time values. -/
theorem statsMean_removed (time torque angle gradient : List ℚ) :
    (statsMean time torque angle gradient).1 =
      time.length - (uniqueSorted time).length := by
  show (((uniqueSorted time).filter (fun u => 1 < time.count u)).map
      (fun u => time.count u - 1)).sum = _
  have hone : ∀ u ∈ uniqueSorted time, 1 ≤ time.count u := fun u hu =>
    List.count_pos_iff.mpr (mem_uniqueSorted.mp hu)
  have hsplit := sum_map_filter_split (fun u => decide (1 < time.count u))
    (fun u => time.count u - 1) (uniqueSorted time)
  have hzero : (((uniqueSorted time).filter
      (fun u => ! decide (1 < time.count u))).map (fun u => time.count u - 1)).sum = 0 := by
    refine List.sum_eq_zero (fun x hx => ?_)
    rcases List.mem_map.mp hx with ⟨u, hu, rfl⟩
    rcases List.mem_filter.mp hu with ⟨_hu1, hu2⟩
    simp only [Bool.not_eq_true', decide_eq_false_iff_not, not_lt] at hu2
    omega
  have hfull : ((uniqueSorted time).map (fun u => time.count u - 1)).sum =
      ((uniqueSorted time).map (fun u => time.count u)).sum -
        (uniqueSorted time).length := sum_map_sub_one hone
  rw [sum_count_uniqueSorted] at hfull
  omega

/-- C4 counterexample: Take strategy `first` on the series with
`time = [0,0,0]`, `torque = [1,1,2]` and constant angle/gradient/step: all
three points share one duplicated time value and the group's non-time values
are *not* identical (torque differs), so the claim demands that the group's
removed-point count 2 be added to `total_value_differences` (and 0 to
`total_true_duplicates`); the code instead classifies per removed point and
produces 1 true duplicate and 1 value difference. -/
theorem c4_group_classification_counterexample :
    (processSeries .first ⟨[0, 0, 0], [1, 1, 2], [0, 0, 0], [0, 0, 0], [0, 0, 0]⟩).map
        (fun p => p.2) = .ok (2, 1, 1) ∧
    allSame (groupVals [0, 0, 0] [1, 1, 2] 0) = false ∧
    ¬ ((2, 1, 1) : ℕ × ℕ × ℕ) = (2, 0, 2) := by
  decide

/-- C4 (amended): For every strategy, each group of indices sharing a
duplicated time value contributes its size minus one to `total_removed`
(equivalently, `total_removed` is the input length minus the number of
distinct time values), and `total_true_duplicates + total_value_differences =
total_removed`.  Classification compares only torque, angle and gradient; the
step channel is never consulted.  Under `mean`, classification is per group:
the whole group counts as true duplicates exactly when those three channels
are each constant across the group.  Under `first` (resp. `last`),
classification is per removed point, each removed point being compared with
the nearest kept position at-or-before (resp. at-or-after) it. -/
theorem c4_amended_duplicate_classification (strat : Strategy) (s : Series)
    (h : validLen s = true) :
    ∃ out td vd,
      processSeries strat s =
        .ok (out, (s.time.length - (uniqueSorted s.time).length, td, vd)) ∧
      td + vd = s.time.length - (uniqueSorted s.time).length ∧
      (strat = .mean → td = ((uniqueSorted s.time).map (fun u =>
          if 1 < s.time.count u ∧ GroupConst s u then s.time.count u - 1 else 0)).sum) ∧
      (strat = .first → ∀ i, i < s.time.length →
          (firstMask s.time).getD i false = false →
          IsNearestKeptBefore (firstMask s.time) i
            (keptIdxFirst (firstMask s.time) i)) ∧
      (strat = .last → ∀ i, i < s.time.length →
          (lastMask s.time).getD i false = false →
          IsNearestKeptAfter (lastMask s.time) i
            (keptIdxLast (lastMask s.time) i)) := by
  cases strat with
  | first =>
    have hr : (statsFirstLast .first (firstMask s.time) s.torque s.angle s.gradient).1 =
        s.time.length - (uniqueSorted s.time).length := dups_length_first s.time
    refine ⟨maskedSeries (firstMask s.time) s,
      (statsFirstLast .first (firstMask s.time) s.torque s.angle s.gradient).2.1,
      (statsFirstLast .first (firstMask s.time) s.torque s.angle s.gradient).2.2,
      ?_, ?_, ?_, ?_, ?_⟩
    · rw [processSeries_first s h, ← hr]
    · rw [← hr]
      simp only [statsFirstLast]
      rw [← List.countP_eq_length_filter, ← List.countP_eq_length_filter]
      exact countP_bool_split _ _
    · intro hc; cases hc
    · intro _ i hi _
      exact keptIdxFirst_spec (firstMask s.time) i ⟨0, Nat.zero_le i,
        firstMask_getD_zero (List.length_pos.mp (by omega))⟩
    · intro hc; cases hc
  | last =>
    have hr : (statsFirstLast .last (lastMask s.time) s.torque s.angle s.gradient).1 =
        s.time.length - (uniqueSorted s.time).length := dups_length_last s.time
    refine ⟨maskedSeries (lastMask s.time) s,
      (statsFirstLast .last (lastMask s.time) s.torque s.angle s.gradient).2.1,
      (statsFirstLast .last (lastMask s.time) s.torque s.angle s.gradient).2.2,
      ?_, ?_, ?_, ?_, ?_⟩
    · rw [processSeries_last s h, ← hr]
    · rw [← hr]
      simp only [statsFirstLast]
      rw [← List.countP_eq_length_filter, ← List.countP_eq_length_filter]
      exact countP_bool_split _ _
    · intro hc; cases hc
    · intro hc; cases hc
    · intro _ i hi _
      refine keptIdxLast_spec (lastMask s.time) i ⟨s.time.length - 1, by omega, ?_, ?_⟩
      · rw [lastMask_length]
        omega
      · exact lastMask_getD_last (List.length_pos.mp (by omega))
  | mean =>
    have hr : (statsMean s.time s.torque s.angle s.gradient).1 =
        s.time.length - (uniqueSorted s.time).length :=
      statsMean_removed s.time s.torque s.angle s.gradient
    refine ⟨⟨uniqueSorted s.time,
      (uniqueSorted s.time).map (groupMean s.time s.torque),
      (uniqueSorted s.time).map (groupMean s.time s.angle),
      (uniqueSorted s.time).map (groupMean s.time s.gradient),
      (uniqueSorted s.time).map (groupMean s.time s.steps)⟩,
      (statsMean s.time s.torque s.angle s.gradient).2.1,
      (statsMean s.time s.torque s.angle s.gradient).2.2, ?_, ?_, ?_, ?_, ?_⟩
    · rw [processSeries_mean s h, ← hr]
    · rw [← hr]
      exact sum_map_filter_split _ _ _
    · intro _
      simp only [statsMean]
      rw [List.filter_filter, sum_map_filter_eq_sum_ite]
      refine congrArg List.sum (List.map_congr_left (fun u _ => ?_))
      refine if_congr ?_ rfl rfl
      simp only [Bool.and_eq_true, decide_eq_true_iff, allSame_iff_pairwise, GroupConst]
      tauto
    · intro hc; cases hc
    · intro hc; cases hc

/-- Witness for the amended C4 at the counterexample's series under the
`first` strategy. -/
theorem c4_amended_duplicate_classification_witness :
    validLen ⟨[0, 0, 0], [1, 1, 2], [0, 0, 0], [0, 0, 0], [0, 0, 0]⟩ = true ∧
    ∃ out td vd,
      processSeries .first ⟨[0, 0, 0], [1, 1, 2], [0, 0, 0], [0, 0, 0], [0, 0, 0]⟩ =
        .ok (out, (([(0 : ℚ), 0, 0] : List ℚ).length -
          (uniqueSorted [0, 0, 0]).length, td, vd)) ∧
      td + vd = ([(0 : ℚ), 0, 0] : List ℚ).length - (uniqueSorted [0, 0, 0]).length ∧
      (Strategy.first = .mean → td = ((uniqueSorted [0, 0, 0]).map (fun u =>
          if 1 < ([(0 : ℚ), 0, 0] : List ℚ).count u ∧
              GroupConst ⟨[0, 0, 0], [1, 1, 2], [0, 0, 0], [0, 0, 0], [0, 0, 0]⟩ u then
            ([(0 : ℚ), 0, 0] : List ℚ).count u - 1 else 0)).sum) ∧
      (Strategy.first = .first → ∀ i, i < ([(0 : ℚ), 0, 0] : List ℚ).length →
          (firstMask [0, 0, 0]).getD i false = false →
          IsNearestKeptBefore (firstMask [0, 0, 0]) i
            (keptIdxFirst (firstMask [0, 0, 0]) i)) ∧
      (Strategy.first = .last → ∀ i, i < ([(0 : ℚ), 0, 0] : List ℚ).length →
          (lastMask [0, 0, 0]).getD i false = false →
          IsNearestKeptAfter (lastMask [0, 0, 0]) i
            (keptIdxLast (lastMask [0, 0, 0]) i)) :=
  ⟨by decide, c4_amended_duplicate_classification .first
    ⟨[0, 0, 0], [1, 1, 2], [0, 0, 0], [0, 0, 0], [0, 0, 0]⟩ (by decide)⟩

/-! ## Error propagation through the dataset-level transform -/

theorem processSeries_error_of_invalid {strat : Strategy} {s : Series}
    (h : validLen s = false) : processSeries strat s = .error .fail := by
  simp [processSeries, h]

theorem processRuns_cons (strat : Strategy) (pd : ProcData) (i : ℕ) (is : List ℕ) :
    processRuns strat pd (i :: is) = (processIdx strat pd i).bind
      (fun r => (processRuns strat pd is).bind (fun rs => .ok (r :: rs))) := rfl

theorem processRuns_error {strat : Strategy} {pd : ProcData} {is : List ℕ} {i : ℕ}
    (hmem : i ∈ is) (herr : ∃ e, processIdx strat pd i = .error e) :
    ∃ e, processRuns strat pd is = .error e := by
  induction is with
  | nil => simp at hmem
  | cons j js ih =>
    rcases List.mem_cons.mp hmem with rfl | hmem'
    · obtain ⟨e, he⟩ := herr
      exact ⟨e, by rw [processRuns_cons, he]; rfl⟩
    · cases hj : processIdx strat pd j with
      | error e => exact ⟨e, by rw [processRuns_cons, hj]; rfl⟩
      | ok r =>
        obtain ⟨e, he⟩ := ih hmem'
        refine ⟨e, ?_⟩
        rw [processRuns_cons, hj]
        show (processRuns strat pd js).bind _ = _
        rw [he]
        rfl

theorem processIdx_error_of_no_step {strat : Strategy} {pd : ProcData}
    {ts : List (List ℚ)} {i : ℕ} {l : List ℚ}
    (hstep : pd.step = none) (htime : pd.time = some ts)
    (hl : ts[i]? = some l) (hne : l ≠ []) :
    ∃ e, processIdx strat pd i = .error e := by
  refine ⟨.fail, ?_⟩
  rw [processIdx]
  rw [htime, hstep]
  show (Except.ok ts).bind _ = _
  rw [Except.bind]
  show (idx ts i).bind _ = _
  rw [idx, hl]
  show (Except.ok l).bind _ = _
  rw [Except.bind]
  cases htq : pd.torque with
  | none => rfl
  | some tqs =>
    show (Except.ok tqs).bind _ = _
    rw [Except.bind]
    show (idx tqs i).bind _ = _
    cases htqi : tqs[i]? with
    | none => rw [idx, htqi]; rfl
    | some tq =>
      rw [idx, htqi]
      show (Except.ok tq).bind _ = _
      rw [Except.bind]
      cases han : pd.angle with
      | none => rfl
      | some ans =>
        show (Except.ok ans).bind _ = _
        rw [Except.bind]
        cases hani : ans[i]? with
        | none => rw [idx, hani]; rfl
        | some an =>
          rw [idx, hani]
          show (Except.ok an).bind _ = _
          rw [Except.bind]
          cases hgr : pd.gradient with
          | none => rfl
          | some grs =>
            show (Except.ok grs).bind _ = _
            rw [Except.bind]
            cases hgri : grs[i]? with
            | none => rw [idx, hgri]; rfl
            | some gr =>
              rw [idx, hgri]
              show (Except.ok gr).bind _ = _
              rw [Except.bind]
              have hinvalid : validLen ⟨l, tq, an, gr, []⟩ = false := by
                cases l with
                | nil => exact absurd rfl hne
                | cons a as => simp [validLen]
              show (processSeries strat ⟨l, tq, an, gr, []⟩).bind _ = _
              rw [processSeries_error_of_invalid hinvalid]
              rfl

/-- C10: If the dataset's `processed_data` has no step channel while some
run's time sequence is non-empty, the duplicate transform raises a
`DuplicateProcessingError` rather than processing that run: the empty
placeholder substituted for the absent step channel fails the equal-length
validation against the non-empty channels (or an earlier lookup already
fails, which also raises). -/
theorem c10_missing_step_channel_errors (strat : Strategy) (pd : ProcData)
    (ts : List (List ℚ)) (l : List ℚ)
    (hstep : pd.step = none) (htime : pd.time = some ts)
    (hl : l ∈ ts) (hne : l ≠ []) :
    ∃ e, dupTransform strat pd = .error e := by
  obtain ⟨i, hi, hget⟩ := List.mem_iff_getElem.mp hl
  have hidx : ts[i]? = some l := by
    rw [List.getElem?_eq_getElem hi, hget]
  obtain ⟨e, he⟩ := processRuns_error
    (List.mem_range.mpr hi)
    (@processIdx_error_of_no_step strat pd ts i l hstep htime hidx hne)
  refine ⟨e, ?_⟩
  rw [dupTransform, htime]
  show ((Except.ok ts).bind _ : Except DupErr (ProcData × DuplicateStats)) = _
  rw [Except.bind]
  show (processRuns strat pd (List.range ts.length)).bind _ = _
  rw [he]
  rfl

/-- The one-run dataset used by the C10 witness: non-empty measurement
channels, no step channel. -/
def c10pd : ProcData :=
  { time := some [[1]], torque := some [[2]], angle := some [[3]], gradient := some [[4]] }

/-- Witness for C10 at a one-run dataset with a non-empty time channel and no
step channel. -/
theorem c10_missing_step_channel_errors_witness :
    (c10pd.step = none ∧ c10pd.time = some [[1]] ∧
      [(1 : ℚ)] ∈ [[(1 : ℚ)]] ∧ [(1 : ℚ)] ≠ []) ∧
    ∃ e, dupTransform .first c10pd = .error e :=
  ⟨⟨rfl, rfl, List.mem_singleton.mpr rfl, by decide⟩,
    c10_missing_step_channel_errors .first c10pd [[1]] [1] rfl rfl
      (List.mem_singleton.mpr rfl) (by decide)⟩

/-! ## The conversion transformer (`convert_dataset.py`) -/

/-- The error raised as `ConversionError` by
`DatasetConversionTransformer.transform` (any exception of the `try` block is
wrapped into it). -/
inductive ConvErr | fail
deriving DecidableEq, Repr

/-- The `output_format` choices `"list" | "numpy" | "dataframe"`. -/
inductive Fmt | list | numpy | dataframe
deriving DecidableEq, Repr

/-- The measurement-channel dictionary keys of `processed_data` that the
`measurements` filter of the conversion transformer can select (the class
channel is always kept when present). -/
inductive Chan | time | torque | angle | gradient | step
deriving DecidableEq, Repr

/-- Whether a channel key survives the `measurements` filter: a `none`
(falsy) selection applies no filter; otherwise a field is kept iff
requested. -/
def keepChan (meas : Option (List Chan)) (c : Chan) : Bool :=
  match meas with
  | none => true
  | some ms => ms.contains c

/-- The measurement-filtering step of `transform` (applied to the deep copy
of `processed_data`): unrequested channels are removed; the class channel is
always kept; a requested-but-absent channel only logs a warning. -/
def filterMeasurements (meas : Option (List Chan)) (p : ProcData) : ProcData :=
  { time := if keepChan meas .time then p.time else none,
    torque := if keepChan meas .torque then p.torque else none,
    angle := if keepChan meas .angle then p.angle else none,
    gradient := if keepChan meas .gradient then p.gradient else none,
    step := if keepChan meas .step then p.step else none,
    classes := p.classes }

/-- `num_series` of the `dataframe` branch: the run count of the time channel
when present, else of the first present entry of the data dictionary in
insertion order (torque, angle, gradient, step, finally the class list);
`none` when the dictionary is empty (`next(iter(...))` raises). -/
def numSeries (p : ProcData) : Option ℕ :=
  match p.time with
  | some ts => some ts.length
  | none => match p.torque with
    | some l => some l.length
    | none => match p.angle with
      | some l => some l.length
      | none => match p.gradient with
        | some l => some l.length
        | none => match p.step with
          | some l => some l.length
          | none => (p.classes).map (·.length)

/-- One row of the DataFrame built by the `dataframe` branch: the series
index, the per-channel values of one measurement point (absent channels
contribute no column) and the attached class label when available. -/
structure TableRow where
  seriesIdx : ℕ
  timeV : Option ℚ := none
  torqueV : Option ℚ := none
  angleV : Option ℚ := none
  gradientV : Option ℚ := none
  stepV : Option ℚ := none
  classV : Option ℚ := none
deriving DecidableEq, Repr

/-- The per-series sequences handed to `pd.DataFrame` for series `i`
(`series_list[i]` when in range, else the empty list with a warning). -/
def presentSeqs (p : ProcData) (i : ℕ) : List (List ℚ) :=
  (match p.time with | some l => [l.getD i []] | none => []) ++
  (match p.torque with | some l => [l.getD i []] | none => []) ++
  (match p.angle with | some l => [l.getD i []] | none => []) ++
  (match p.gradient with | some l => [l.getD i []] | none => []) ++
  (match p.step with | some l => [l.getD i []] | none => [])

/-- All sequences share one length (otherwise `pd.DataFrame` raises). -/
def allEqLen : List (List ℚ) → Bool
  | [] => true
  | s :: rest => rest.all (fun r => r.length == s.length)

/-- The rows produced for series `i` by the `dataframe` branch, or the
`pd.DataFrame` construction error when the kept channels' sequences for this
series have unequal lengths. -/
def seriesRows (p : ProcData) (i : ℕ) : Except ConvErr (List TableRow) :=
  let seqs := presentSeqs p i
  if allEqLen seqs then
    let n := ((seqs.head?).map List.length).getD 0
    .ok ((List.range n).map (fun j =>
      { seriesIdx := i,
        timeV := p.time.map (fun l => (l.getD i []).getD j 0),
        torqueV := p.torque.map (fun l => (l.getD i []).getD j 0),
        angleV := p.angle.map (fun l => (l.getD i []).getD j 0),
        gradientV := p.gradient.map (fun l => (l.getD i []).getD j 0),
        stepV := p.step.map (fun l => (l.getD i []).getD j 0),
        classV := match p.classes with
          | some cs => cs[i]?
          | none => none }))
  else .error .fail

/-- The table built by the `dataframe` branch (all series' rows
concatenated). -/
def buildTable (p : ProcData) : Except ConvErr (List TableRow) :=
  match numSeries p with
  | none => .error .fail
  | some n => ((List.range n).mapM (seriesRows p)).map List.flatten

/-- The converted payload: the dict-of-lists shape (kept by the `list` and
`numpy` formats, whose NumPy conversion preserves the numeric content) or the
row table of the `dataframe` format. -/
inductive ConvData
  | dict : ProcData → ConvData
  | table : List TableRow → ConvData
deriving DecidableEq

/-- The value computation of `DatasetConversionTransformer.transform`: deep
copy (pure in the embedding), measurement filtering, then format
conversion. -/
def convertCompute (fmt : Fmt) (meas : Option (List Chan)) (p : ProcData) :
    Except ConvErr ConvData :=
  let q := filterMeasurements meas p
  match fmt with
  | .list => .ok (.dict q)
  | .numpy => .ok (.dict q)
  | .dataframe => (buildTable q).map .table

/-- `DatasetConversionTransformer.transform` as a trace of the mutation of
`dataset.processed_data`: the transformer works on a `copy.deepcopy` of the
input and the assignment `dataset.processed_data = converted_data` is the
final statement of the `try` block, so an exception anywhere earlier leaves
the dataset's `processed_data` at its input value. -/
def convertTransformTrace (fmt : Fmt) (meas : Option (List Chan))
    (p : ProcData) : ConvData × Option ConvErr :=
  match convertCompute fmt meas p with
  | .error e => (.dict p, some e)
  | .ok out => (out, none)

/-! ## The unpack stage as a mutation trace (`unpack_steps.py`) -/

/-- The error raised when reading an absent channel from a step's graph data:
`ScrewStep.__init__` stores `np.array(graph_data.get(key))`, so a missing key
becomes a 0-d `None` array whose `.tolist()` is `None`; both
`len(None)` (the `step_length` computation) and `list.extend(None)` (the
measurement loop) then raise `TypeError` mid-stage. -/
inductive UnpackErr | fail
deriving DecidableEq, Repr

/-- A raw `ScrewStep`'s channel arrays as the unpack stage reads them:
`none` models a channel whose graph key was absent, which raises on use. -/
structure RawStep where
  rawTime : Option (List ℚ)
  rawTorque : Option (List ℚ)
  rawAngle : Option (List ℚ)
  rawGradient : Option (List ℚ)
deriving DecidableEq, Repr

/-- `dataset.processed_data[measurement][run_idx].extend(values)`: in-place
extension of run `i`'s sequence in one channel. -/
def extendRun (chan : Option (List (List ℚ))) (i : ℕ) (vals : List ℚ) :
    Option (List (List ℚ)) :=
  chan.map (fun L => L.set i (L.getD i [] ++ vals))

/-- One iteration of the step loop of `UnpackStepsTransformer.transform`,
as a mutation of the dataset state: first `step_length =
len(step.get_values(TIME))` (raises if time is absent), then the measurement
loop in the source's order torque, angle, gradient, time (each `extend`
raises if its channel is absent, leaving the extends already performed in
place), finally the step indicators.  Returns the state as mutated so far
together with the raised error, if any. -/
def unpackStepTrace (includeSteps : Bool) (runIdx stepIdx : ℕ) (st : RawStep)
    (pd : ProcData) : ProcData × Option UnpackErr :=
  match st.rawTime with
  | none => (pd, some .fail)
  | some timeVals =>
    match st.rawTorque with
    | none => (pd, some .fail)
    | some tq =>
      let pd1 := { pd with torque := extendRun pd.torque runIdx tq }
      match st.rawAngle with
      | none => (pd1, some .fail)
      | some an =>
        let pd2 := { pd1 with angle := extendRun pd1.angle runIdx an }
        match st.rawGradient with
        | none => (pd2, some .fail)
        | some gr =>
          let pd3 := { pd2 with gradient := extendRun pd2.gradient runIdx gr }
          let pd4 := { pd3 with time := extendRun pd3.time runIdx timeVals }
          let stepVals := List.replicate timeVals.length ((stepIdx : ℕ) : ℚ)
          if includeSteps then
            ({ pd4 with step := extendRun pd4.step runIdx stepVals }, none)
          else (pd4, none)

/-- The step loop over one run, threading the mutated state and stopping at
the first raised error. -/
def unpackStepsLoop (includeSteps : Bool) (runIdx : ℕ) :
    List RawStep → ℕ → ProcData → ProcData × Option UnpackErr
  | [], _, pd => (pd, none)
  | st :: rest, stepIdx, pd =>
    match unpackStepTrace includeSteps runIdx stepIdx st pd with
    | (pd', some e) => (pd', some e)
    | (pd', none) => unpackStepsLoop includeSteps runIdx rest (stepIdx + 1) pd'

/-- The run loop of `UnpackStepsTransformer.transform`. -/
def unpackRunsLoop (includeSteps : Bool) :
    List (List RawStep) → ℕ → ProcData → ProcData × Option UnpackErr
  | [], _, pd => (pd, none)
  | r :: rest, runIdx, pd =>
    match unpackStepsLoop includeSteps runIdx r 0 pd with
    | (pd', some e) => (pd', some e)
    | (pd', none) => unpackRunsLoop includeSteps rest (runIdx + 1) pd'

/-- The freshly rebuilt `processed_data` committed by the *first* statement
of `UnpackStepsTransformer.transform` (`dataset.processed_data = {m: [] for m
in measurements}`, the optional step key, and the per-run pre-allocation of
empty lists — none of which can fail). -/
def unpackFresh (numRuns : ℕ) (includeSteps : Bool) : ProcData :=
  { time := some (List.replicate numRuns []),
    torque := some (List.replicate numRuns []),
    angle := some (List.replicate numRuns []),
    gradient := some (List.replicate numRuns []),
    step := if includeSteps then some (List.replicate numRuns []) else none,
    classes := none }

/-- `UnpackStepsTransformer.transform` as a trace of the mutation of
`dataset.processed_data`: unlike the duplicate and conversion transforms, the
assignment replacing `processed_data` is the *first* statement
(unpack_steps.py line 48), executed before any step is read, and the new
structure is then populated in place — so the pre-stage value `pdInput` is
discarded up front and a mid-stage error leaves the partially populated
fresh structure behind. -/
def unpackTransformTrace (runs : List (List RawStep)) (includeSteps : Bool)
    (_pdInput : ProcData) : ProcData × Option UnpackErr :=
  unpackRunsLoop includeSteps runs 0 (unpackFresh runs.length includeSteps)

/-- The outer shape `processed_data` has from the moment the unpack stage
commits its fresh dictionary: no class key, one (possibly partially
populated) sequence slot per run in each measurement channel, and a step
channel exactly when step indicators were requested. -/
def hasShape (n : ℕ) (includeSteps : Bool) (pd : ProcData) : Prop :=
  pd.classes = none ∧
  pd.time.map List.length = some n ∧ pd.torque.map List.length = some n ∧
  pd.angle.map List.length = some n ∧ pd.gradient.map List.length = some n ∧
  pd.step.map List.length = (if includeSteps then some n else none)

theorem extendRun_map_length (chan : Option (List (List ℚ))) (i : ℕ)
    (vals : List ℚ) :
    (extendRun chan i vals).map List.length = chan.map List.length := by
  cases chan with
  | none => rfl
  | some L => simp [extendRun, List.length_set]

theorem unpackStepTrace_shape {n : ℕ} {b : Bool} {i j : ℕ} {st : RawStep}
    {pd : ProcData} (h : hasShape n b pd) :
    hasShape n b (unpackStepTrace b i j st pd).1 := by
  obtain ⟨h1, h2, h3, h4, h5, h6⟩ := h
  cases htm : st.rawTime with
  | none =>
    simp only [unpackStepTrace, htm]
    exact ⟨h1, h2, h3, h4, h5, h6⟩
  | some timeVals =>
    cases htq : st.rawTorque with
    | none =>
      simp only [unpackStepTrace, htm, htq]
      exact ⟨h1, h2, h3, h4, h5, h6⟩
    | some tq =>
      cases han : st.rawAngle with
      | none =>
        simp only [unpackStepTrace, htm, htq, han]
        exact ⟨h1, h2, by rw [extendRun_map_length]; exact h3, h4, h5, h6⟩
      | some an =>
        cases hgr : st.rawGradient with
        | none =>
          simp only [unpackStepTrace, htm, htq, han, hgr]
          exact ⟨h1, h2, by rw [extendRun_map_length]; exact h3,
            by rw [extendRun_map_length]; exact h4, h5, h6⟩
        | some gr =>
          cases b with
          | false =>
            simp only [unpackStepTrace, htm, htq, han, hgr, Bool.false_eq_true,
              if_false]
            exact ⟨h1, by rw [extendRun_map_length]; exact h2,
              by rw [extendRun_map_length]; exact h3,
              by rw [extendRun_map_length]; exact h4,
              by rw [extendRun_map_length]; exact h5, h6⟩
          | true =>
            simp only [unpackStepTrace, htm, htq, han, hgr, if_true]
            exact ⟨h1, by rw [extendRun_map_length]; exact h2,
              by rw [extendRun_map_length]; exact h3,
              by rw [extendRun_map_length]; exact h4,
              by rw [extendRun_map_length]; exact h5,
              by rw [extendRun_map_length]; exact h6⟩

theorem unpackStepsLoop_shape {n : ℕ} {b : Bool} {i : ℕ} :
    ∀ (sts : List RawStep) (j : ℕ) (pd : ProcData), hasShape n b pd →
      hasShape n b (unpackStepsLoop b i sts j pd).1 := by
  intro sts
  induction sts with
  | nil => intro j pd h; exact h
  | cons st rest ih =>
    intro j pd h
    rw [unpackStepsLoop]
    cases htr : unpackStepTrace b i j st pd with
    | mk pd' eo =>
      have hpd' : hasShape n b pd' := by
        have := @unpackStepTrace_shape n b i j st pd h
        rw [htr] at this
        exact this
      cases eo with
      | none => exact ih (j + 1) pd' hpd'
      | some e => exact hpd'

theorem unpackRunsLoop_shape {n : ℕ} {b : Bool} :
    ∀ (runs : List (List RawStep)) (i : ℕ) (pd : ProcData), hasShape n b pd →
      hasShape n b (unpackRunsLoop b runs i pd).1 := by
  intro runs
  induction runs with
  | nil => intro i pd h; exact h
  | cons r rest ih =>
    intro i pd h
    rw [unpackRunsLoop]
    cases hsl : unpackStepsLoop b i r 0 pd with
    | mk pd' eo =>
      have hpd' : hasShape n b pd' := by
        have := @unpackStepsLoop_shape n b i r 0 pd h
        rw [hsl] at this
        exact this
      cases eo with
      | none => exact ih (i + 1) pd' hpd'
      | some e => exact hpd'

theorem unpackFresh_shape (n : ℕ) (b : Bool) : hasShape n b (unpackFresh n b) := by
  cases b <;> simp [hasShape, unpackFresh]

/-- C9 counterexample: the unpack stage is *not* atomic on `processed_data`.
On a dataset whose single run has a step with time and torque present but the
angle key absent, the stage first commits the fresh dictionary, extends the
torque sequence, and only then raises — leaving `processed_data` changed from
its pre-stage value (and not wholly replaced by any completed output). -/
theorem c9_unpack_stage_not_atomic_counterexample :
    (unpackTransformTrace [[⟨some [1], some [2], none, some [3]⟩]] true
      { time := some [[5]], torque := some [[6]], angle := some [[7]],
        gradient := some [[8]] }).2 = some .fail ∧
    ¬ (unpackTransformTrace [[⟨some [1], some [2], none, some [3]⟩]] true
      { time := some [[5]], torque := some [[6]], angle := some [[7]],
        gradient := some [[8]] }).1 =
      { time := some [[5]], torque := some [[6]], angle := some [[7]],
        gradient := some [[8]] } ∧
    (unpackTransformTrace [[⟨some [1], some [2], none, some [3]⟩]] true
      { time := some [[5]], torque := some [[6]], angle := some [[7]],
        gradient := some [[8]] }).1.torque = some [[2]] := by
  decide

/-- C9 (amended): The duplicate-resolution and format-conversion stages are
atomic on the dataset's `processed_data` — when their transform raises,
`processed_data` is unchanged from its pre-stage value, and on success it is
wholly replaced by the stage's output, committed as the last statement.  The
step-unpacking stage is not atomic: it commits a fresh `processed_data`
dictionary as its first statement and populates it in place, so the result
never depends on the pre-stage value, and even when the stage raises
mid-loop, `processed_data` is the partially populated fresh structure (one
slot per run, no class key) rather than its pre-stage value. -/
theorem c9_amended_stage_atomicity :
    (∀ (strat : Strategy) (pd : ProcData),
      (∀ e, (dupTransformTrace strat pd).2 = some e →
        (dupTransformTrace strat pd).1 = pd) ∧
      (∀ out stats, dupTransform strat pd = .ok (out, stats) →
        (dupTransformTrace strat pd).1 = out ∧
          (dupTransformTrace strat pd).2 = none)) ∧
    (∀ (fmt : Fmt) (meas : Option (List Chan)) (p : ProcData),
      (∀ e, (convertTransformTrace fmt meas p).2 = some e →
        (convertTransformTrace fmt meas p).1 = .dict p) ∧
      (∀ out, convertCompute fmt meas p = .ok out →
        (convertTransformTrace fmt meas p).1 = out ∧
          (convertTransformTrace fmt meas p).2 = none)) ∧
    (∀ (runs : List (List RawStep)) (b : Bool) (pdInput pdInput' : ProcData),
      unpackTransformTrace runs b pdInput = unpackTransformTrace runs b pdInput' ∧
      hasShape runs.length b (unpackTransformTrace runs b pdInput).1) := by
  refine ⟨?_, ?_, ?_⟩
  · intro strat pd
    constructor
    · intro e he
      rw [dupTransformTrace] at he ⊢
      cases hd : dupTransform strat pd with
      | error e' => rfl
      | ok r =>
        rw [hd] at he
        simp at he
    · intro out stats hok
      rw [dupTransformTrace, hok]
      exact ⟨rfl, rfl⟩
  · intro fmt meas p
    constructor
    · intro e he
      rw [convertTransformTrace] at he ⊢
      cases hd : convertCompute fmt meas p with
      | error e' => rfl
      | ok r =>
        rw [hd] at he
        simp at he
    · intro out hok
      rw [convertTransformTrace, hok]
      exact ⟨rfl, rfl⟩
  · intro runs b pdInput pdInput'
    exact ⟨rfl, unpackRunsLoop_shape runs 0 _ (unpackFresh_shape runs.length b)⟩

/-- Witness for the amended C9: a duplicate transform that raises (missing
torque channel) leaves the dataset unchanged, a dataframe conversion that
raises (ragged series lengths) leaves the dataset unchanged, and the unpack
trace on the counterexample's input carries the fresh one-run shape. -/
theorem c9_amended_stage_atomicity_witness :
    ((dupTransformTrace .first { time := some [[1]] }).2 = some .fail ∧
      (dupTransformTrace .first { time := some [[1]] }).1 = { time := some [[1]] }) ∧
    ((convertTransformTrace .dataframe none { time := some [[1]], torque := some [[2, 3]] }).2 =
        some .fail ∧
      (convertTransformTrace .dataframe none { time := some [[1]], torque := some [[2, 3]] }).1 =
        .dict { time := some [[1]], torque := some [[2, 3]] }) ∧
    hasShape 1 true (unpackTransformTrace [[⟨some [1], some [2], none, some [3]⟩]] true
      { time := some [[5]] }).1 :=
  ⟨⟨by decide, (c9_amended_stage_atomicity.1 .first { time := some [[1]] }).1 .fail (by decide)⟩,
    ⟨by decide, (c9_amended_stage_atomicity.2.1 .dataframe none
      { time := some [[1]], torque := some [[2, 3]] }).1 .fail (by decide)⟩,
    (c9_amended_stage_atomicity.2.2 [[⟨some [1], some [2], none, some [3]⟩]] true
      { time := some [[5]] } { time := some [[5]] }).2⟩

/-! ## Label filtering (`ScrewDataset._filter_labels`, data_model.py) -/

/-- One row of the label table `labels.csv`, keyed by file name, with the
columns used by filtering. -/
structure LabelRow where
  fileName : String
  classLabel : ℤ
  cycle : ℤ
  position : ℤ
deriving DecidableEq, Repr

/-- A validated `screw_positions` value (an invalid string raises `ValueError`
inside `_filter_labels` before any row is selected, outside this model). -/
inductive Pos | left | right | both
deriving DecidableEq, Repr

/-- The effective selection list computed by
`self.scenario_classes or df[...].unique().tolist()`: Python's `or` replaces
both `None` and the (falsy) empty list by the column's distinct values.  (The
embedding's `dedup` may order the distinct values differently from pandas'
`unique`, but only membership in the list is ever used.) -/
def effectiveSelection (sel : Option (List ℤ)) (columnVals : List ℤ) : List ℤ :=
  match sel with
  | none => columnVals.dedup
  | some l => if l.isEmpty then columnVals.dedup else l

/-- `ScrewDataset._filter_labels`: boolean-mask filtering of the label rows by
class membership, cycle membership and (unless `both` or unset) position
equality against `POSITION_MAP = {left: 0, right: 1, both: None}`. -/
def filterLabels (rows : List LabelRow) (scenarioClasses screwCycles : Option (List ℤ))
    (screwPositions : Option Pos) : List LabelRow :=
  let classes := effectiveSelection scenarioClasses (rows.map (·.classLabel))
  let cycles := effectiveSelection screwCycles (rows.map (·.cycle))
  rows.filter (fun r =>
    classes.contains r.classLabel && cycles.contains r.cycle &&
      match screwPositions with
      | some .left => r.position == 0
      | some .right => r.position == 1
      | _ => true)

/-- C7 counterexample: With the empty class selection `some []`, the claim
demands that exactly the rows whose class lies in the empty set — i.e. no
rows — be selected; the code's `or`-fallback treats the empty list like
`None` and selects every row. -/
theorem c7_empty_selection_counterexample :
    filterLabels [⟨"f1", 5, 1, 0⟩] (some []) none (some .both) = [⟨"f1", 5, 1, 0⟩] ∧
      ¬ ((5 : ℤ) ∈ ([] : List ℤ)) := by
  constructor
  · rfl
  · simp

theorem effective_contains (sel : Option (List ℤ)) {allVals : List ℤ} {v : ℤ}
    (hv : v ∈ allVals) :
    (effectiveSelection sel allVals).contains v =
      (match sel with
        | some (c :: cs) => decide (v ∈ c :: cs)
        | _ => true) := by
  rcases sel with _ | l
  · simp [effectiveSelection, List.elem_eq_mem, List.mem_dedup, hv]
  · cases l with
    | nil => simp [effectiveSelection, List.elem_eq_mem, List.mem_dedup, hv]
    | cons c cs => simp [effectiveSelection, List.elem_eq_mem]

/-- C7 (amended): Dataset construction selects exactly the label-table
rows whose class label is in the selected class set, whose cycle number is in
the selected cycle set, and whose position matches the policy — where `both`
(or an unset position) imposes no position filter and where an *empty or
unset* class (resp. cycle) selection imposes no class (resp. cycle) filter,
because Python's `or`-fallback replaces falsy selections by all distinct
column values. -/
theorem c7_amended_label_filter (rows : List LabelRow)
    (scenarioClasses screwCycles : Option (List ℤ)) (screwPositions : Option Pos) :
    filterLabels rows scenarioClasses screwCycles screwPositions =
      rows.filter (fun r =>
        (match scenarioClasses with
          | some (c :: cs) => decide (r.classLabel ∈ c :: cs)
          | _ => true) &&
        (match screwCycles with
          | some (c :: cs) => decide (r.cycle ∈ c :: cs)
          | _ => true) &&
        (match screwPositions with
          | some .left => decide (r.position = 0)
          | some .right => decide (r.position = 1)
          | _ => true)) := by
  rw [filterLabels]
  refine List.filter_congr (fun r hr => ?_)
  have hclass := effective_contains scenarioClasses
    (List.mem_map.mpr ⟨r, hr, rfl⟩ : r.classLabel ∈ rows.map (·.classLabel))
  have hcycle := effective_contains screwCycles
    (List.mem_map.mpr ⟨r, hr, rfl⟩ : r.cycle ∈ rows.map (·.cycle))
  rw [hclass, hcycle]
  rcases screwPositions with _ | p
  · rfl
  · cases p <;> simp [Bool.beq_eq_decide_eq]

/-! ## Run construction and loading (`ScrewRun.__init__`, `_load_runs`) -/

/-- The run-level fields read from a raw JSON record (`date`, `id code`,
`result`; the `tightening steps` payload is irrelevant to the cross-check and
omitted). -/
structure RunJsonRec where
  date : String
  dmc : String
  result : String
deriving DecidableEq, Repr

/-- The dataclass `RunMetadata` built from the label table. -/
structure RunMetadataRec where
  data_matrix_code : String
  result : String
  cycle : ℤ
  position : ℤ
  class_label : ℤ
deriving DecidableEq, Repr

/-- A constructed `ScrewRun` (cross-checked attributes only). -/
structure ScrewRunRec where
  id : String
  date : String
  dmc : String
  result : String
  screw_cycle : ℤ
  screw_position : ℤ
  class_label : ℤ
deriving DecidableEq, Repr

/-- `ScrewRun.__init__`: set the attributes, then assert that the JSON
record's `id code` and `result` agree with the label table (`AssertionError`
on mismatch, the DMC check first). -/
def screwRunInit (runId : String) (j : RunJsonRec) (lbl : RunMetadataRec) :
    Except String ScrewRunRec :=
  if j.dmc ≠ lbl.data_matrix_code then
    .error "DMC mismatch"
  else if j.result ≠ lbl.result then
    .error "Result mismatch"
  else
    .ok ⟨runId, j.date, j.dmc, j.result, lbl.cycle, lbl.position, lbl.class_label⟩

/-- `ScrewDataset._load_runs` restricted to in-memory records (file-existence
and JSON-parse failures are separate, also fatal, error paths): construct a
`ScrewRun` per filtered file in order; every exception is re-raised as a
`ValueError`, so the first failing run aborts the whole load. -/
def loadRuns : List (String × RunJsonRec × RunMetadataRec) →
    Except String (List ScrewRunRec)
  | [] => .ok []
  | (fid, j, lbl) :: rest => do
      let r ← screwRunInit fid j lbl
      let rs ← loadRuns rest
      pure (r :: rs)

theorem loadRuns_cons (fid : String) (j : RunJsonRec) (lbl : RunMetadataRec)
    (rest : List (String × RunJsonRec × RunMetadataRec)) :
    loadRuns ((fid, j, lbl) :: rest) = (screwRunInit fid j lbl).bind
      (fun r => (loadRuns rest).bind (fun rs => .ok (r :: rs))) := rfl

/-- C8: If a raw record's identifying code or result string differs from
the label table's value for the same file, constructing the `ScrewRun` raises
a structural-mismatch error, and loading any dataset containing such a run
fails entirely rather than silently dropping that run. -/
theorem c8_mismatch_aborts_load :
    (∀ (runId : String) (j : RunJsonRec) (lbl : RunMetadataRec),
      (j.dmc ≠ lbl.data_matrix_code ∨ j.result ≠ lbl.result) →
      ∃ e, screwRunInit runId j lbl = .error e) ∧
    (∀ files : List (String × RunJsonRec × RunMetadataRec),
      (∃ f ∈ files, f.2.1.dmc ≠ f.2.2.data_matrix_code ∨
        f.2.1.result ≠ f.2.2.result) →
      ∀ runs, loadRuns files ≠ .ok runs) := by
  have hinit : ∀ (runId : String) (j : RunJsonRec) (lbl : RunMetadataRec),
      (j.dmc ≠ lbl.data_matrix_code ∨ j.result ≠ lbl.result) →
      ∃ e, screwRunInit runId j lbl = .error e := by
    intro runId j lbl hmis
    rw [screwRunInit]
    by_cases h1 : j.dmc ≠ lbl.data_matrix_code
    · exact ⟨"DMC mismatch", by rw [if_pos h1]⟩
    · have h2 : j.result ≠ lbl.result := by tauto
      exact ⟨"Result mismatch", by rw [if_neg h1, if_pos h2]⟩
  refine ⟨hinit, ?_⟩
  intro files
  induction files with
  | nil =>
    intro hex runs _
    obtain ⟨f, hf, _⟩ := hex
    simp at hf
  | cons f rest ih =>
    intro hex runs hok
    obtain ⟨g, hg, hgmis⟩ := hex
    obtain ⟨fid, j, lbl⟩ := f
    rw [loadRuns_cons] at hok
    rcases List.mem_cons.mp hg with rfl | hg'
    · obtain ⟨e, he⟩ := hinit fid j lbl hgmis
      rw [he] at hok
      exact absurd hok (by simp [Except.bind])
    · cases hinit' : screwRunInit fid j lbl with
      | error e =>
        rw [hinit'] at hok
        exact absurd hok (by simp [Except.bind])
      | ok r =>
        rw [hinit'] at hok
        have hok' : (loadRuns rest).bind (fun rs => Except.ok (r :: rs)) = Except.ok runs := hok
        cases hrest : loadRuns rest with
        | error e =>
          rw [hrest] at hok'
          exact absurd hok' (by simp [Except.bind])
        | ok rs =>
          exact ih ⟨g, hg', hgmis⟩ rs hrest

/-- Witness for C8 at a concrete mismatching record. -/
theorem c8_mismatch_aborts_load_witness :
    ((⟨"d", "DMC1", "OK"⟩ : RunJsonRec).dmc ≠
        (⟨"DMC2", "OK", 1, 0, 0⟩ : RunMetadataRec).data_matrix_code ∨
      (⟨"d", "DMC1", "OK"⟩ : RunJsonRec).result ≠
        (⟨"DMC2", "OK", 1, 0, 0⟩ : RunMetadataRec).result) ∧
    (∃ e, screwRunInit "run1" ⟨"d", "DMC1", "OK"⟩ ⟨"DMC2", "OK", 1, 0, 0⟩ = .error e) ∧
    ∀ runs, loadRuns [("f1", ⟨"d", "DMC1", "OK"⟩, ⟨"DMC2", "OK", 1, 0, 0⟩)] ≠ .ok runs :=
  ⟨Or.inl (by decide),
    c8_mismatch_aborts_load.1 "run1" ⟨"d", "DMC1", "OK"⟩ ⟨"DMC2", "OK", 1, 0, 0⟩
      (Or.inl (by decide)),
    c8_mismatch_aborts_load.2 [("f1", ⟨"d", "DMC1", "OK"⟩, ⟨"DMC2", "OK", 1, 0, 0⟩)]
      ⟨("f1", ⟨"d", "DMC1", "OK"⟩, ⟨"DMC2", "OK", 1, 0, 0⟩), List.mem_singleton.mpr rfl,
        Or.inl (by decide)⟩⟩

/-! ## The Length Normalizer (modelled from the spec) -/

/-- A padding/cutoff position policy (`"pre"` or `"post"`), per the
`PADDING_POSITIONS`/`CUTOFF_POSITIONS` options of `PipelineConfig`
(config/pipeline.py). -/
inductive PadPos | pre | post
deriving DecidableEq, Repr

/-- Modelled from the spec: the Length Normalizer's per-sequence operation is
absent from the source tree (only its configuration — `target_length`,
`padding_value`, `padding_position`, `cutoff_position` — appears in
config/pipeline.py).  Per spec §4.4: a sequence shorter than the target is
padded with the fill value by the exact deficit, before (`pre`) or after
(`post`) the existing values; a longer one is truncated by the exact excess,
from the front (`pre`, keeping the tail) or the back (`post`, keeping the
head); an equal-length sequence passes through unchanged. -/
def normalizeLength (target : ℕ) (padVal : ℚ) (padPos cutPos : PadPos)
    (xs : List ℚ) : List ℚ :=
  if xs.length < target then
    match padPos with
    | .pre => List.replicate (target - xs.length) padVal ++ xs
    | .post => xs ++ List.replicate (target - xs.length) padVal
  else if target < xs.length then
    match cutPos with
    | .pre => xs.drop (xs.length - target)
    | .post => xs.take target
  else xs

/-- Modelled from the spec: the Length Normalizer stage applies the
per-sequence operation to every run's sequence of every aligned channel
(time, torque, angle, gradient and — when present — step); the class channel
is per-run, not per-point, and is untouched. -/
def normalizeStage (target : ℕ) (padVal : ℚ) (padPos cutPos : PadPos)
    (pd : ProcData) : ProcData :=
  { time := pd.time.map (·.map (normalizeLength target padVal padPos cutPos)),
    torque := pd.torque.map (·.map (normalizeLength target padVal padPos cutPos)),
    angle := pd.angle.map (·.map (normalizeLength target padVal padPos cutPos)),
    gradient := pd.gradient.map (·.map (normalizeLength target padVal padPos cutPos)),
    step := pd.step.map (·.map (normalizeLength target padVal padPos cutPos)),
    classes := pd.classes }

theorem normalizeLength_length (target : ℕ) (padVal : ℚ) (padPos cutPos : PadPos)
    (xs : List ℚ) : (normalizeLength target padVal padPos cutPos xs).length = target := by
  rw [normalizeLength.eq_def]
  by_cases h1 : xs.length < target
  · rw [if_pos h1]
    cases padPos <;> simp <;> omega
  · rw [if_neg h1]
    by_cases h2 : target < xs.length
    · rw [if_pos h2]
      cases cutPos <;> simp <;> omega
    · rw [if_neg h2]
      omega

/-- Every sequence of every aligned channel after the stage has the target
length. -/
theorem normalizeStage_lengths (target : ℕ) (padVal : ℚ) (padPos cutPos : PadPos)
    (pd : ProcData) :
    ∀ chan ∈ [(normalizeStage target padVal padPos cutPos pd).time,
      (normalizeStage target padVal padPos cutPos pd).torque,
      (normalizeStage target padVal padPos cutPos pd).angle,
      (normalizeStage target padVal padPos cutPos pd).gradient,
      (normalizeStage target padVal padPos cutPos pd).step],
      ∀ runsList ∈ chan, ∀ xs ∈ runsList, xs.length = target := by
  intro chan hchan runsList hrl xs hxs
  simp only [normalizeStage, List.mem_cons, List.not_mem_nil, or_false] at hchan
  have : ∃ src : Option (List (List ℚ)),
      chan = src.map (·.map (normalizeLength target padVal padPos cutPos)) := by
    rcases hchan with rfl | rfl | rfl | rfl | rfl
    · exact ⟨pd.time, rfl⟩
    · exact ⟨pd.torque, rfl⟩
    · exact ⟨pd.angle, rfl⟩
    · exact ⟨pd.gradient, rfl⟩
    · exact ⟨pd.step, rfl⟩
  obtain ⟨src, rfl⟩ := this
  cases src with
  | none => simp at hrl
  | some runs =>
    simp only [Option.map_some', Option.mem_def, Option.some.injEq] at hrl
    subst hrl
    obtain ⟨orig, _horig, rfl⟩ := List.mem_map.mp hxs
    exact normalizeLength_length _ _ _ _ _

/-- C2: After the Length Normalizer stage every aligned channel's output
sequence has exactly the configured target length for every run: runs shorter
than the target are padded by the exact deficit at the configured padding
position, runs longer are truncated by the exact excess at the configured
cutoff position, and runs of equal length pass through unchanged. -/
theorem c2_length_normalizer (target : ℕ) (padVal : ℚ) (padPos cutPos : PadPos) :
    (∀ xs : List ℚ,
      (normalizeLength target padVal padPos cutPos xs).length = target ∧
      (xs.length = target → normalizeLength target padVal padPos cutPos xs = xs) ∧
      (xs.length < target →
        (padPos = .post → normalizeLength target padVal padPos cutPos xs =
          xs ++ List.replicate (target - xs.length) padVal) ∧
        (padPos = .pre → normalizeLength target padVal padPos cutPos xs =
          List.replicate (target - xs.length) padVal ++ xs)) ∧
      (target < xs.length →
        (cutPos = .post → normalizeLength target padVal padPos cutPos xs =
          xs.take target) ∧
        (cutPos = .pre → normalizeLength target padVal padPos cutPos xs =
          xs.drop (xs.length - target)))) ∧
    (∀ pd : ProcData,
      ∀ chan ∈ [(normalizeStage target padVal padPos cutPos pd).time,
        (normalizeStage target padVal padPos cutPos pd).torque,
        (normalizeStage target padVal padPos cutPos pd).angle,
        (normalizeStage target padVal padPos cutPos pd).gradient,
        (normalizeStage target padVal padPos cutPos pd).step],
        ∀ runsList ∈ chan, ∀ xs ∈ runsList, xs.length = target) := by
  constructor
  · intro xs
    refine ⟨normalizeLength_length _ _ _ _ _, ?_, ?_, ?_⟩
    · intro heq
      rw [normalizeLength.eq_def, if_neg (by omega), if_neg (by omega)]
    · intro hlt
      constructor
      · rintro rfl
        rw [normalizeLength.eq_def, if_pos hlt]
      · rintro rfl
        rw [normalizeLength.eq_def, if_pos hlt]
    · intro hgt
      constructor
      · rintro rfl
        rw [normalizeLength.eq_def, if_neg (by omega), if_pos hgt]
      · rintro rfl
        rw [normalizeLength.eq_def, if_neg (by omega), if_pos hgt]
  · exact normalizeStage_lengths target padVal padPos cutPos

/-- Witness for C2 at a short, an equal and a long concrete sequence. -/
theorem c2_length_normalizer_witness :
    (normalizeLength 3 0 .post .post [5]).length = 3 ∧
    (([(5 : ℚ), 6, 7] : List ℚ).length = 3 →
      normalizeLength 3 0 .post .post [5, 6, 7] = [5, 6, 7]) ∧
    (([(5 : ℚ)] : List ℚ).length < 3 →
      (PadPos.post = .post → normalizeLength 3 0 .post .post [5] =
        [5] ++ List.replicate (3 - ([(5 : ℚ)] : List ℚ).length) 0) ∧
      (PadPos.post = .pre → normalizeLength 3 0 .post .post [5] =
        List.replicate (3 - ([(5 : ℚ)] : List ℚ).length) 0 ++ [5])) ∧
    (3 < ([(5 : ℚ), 6, 7, 8] : List ℚ).length →
      (PadPos.post = .post → normalizeLength 3 0 .post .post [5, 6, 7, 8] =
        ([(5 : ℚ), 6, 7, 8] : List ℚ).take 3) ∧
      (PadPos.post = .pre → normalizeLength 3 0 .post .post [5, 6, 7, 8] =
        ([(5 : ℚ), 6, 7, 8] : List ℚ).drop (([(5 : ℚ), 6, 7, 8] : List ℚ).length - 3))) :=
  ⟨((c2_length_normalizer 3 0 .post .post).1 [5]).1,
    ((c2_length_normalizer 3 0 .post .post).1 [5, 6, 7]).2.1,
    ((c2_length_normalizer 3 0 .post .post).1 [5]).2.2.1,
    ((c2_length_normalizer 3 0 .post .post).1 [5, 6, 7, 8]).2.2.2⟩

end PyScrew

